import Mathlib

/-!
Verification of the Brainfuck interpreter in `bfi.py`.

The embedding below models the class `Brainfuck`:
  * `splitlines` / `mkScript` model line 71 of `eval`:
    `self._script = [(i, ln) for i, ln in enumerate(code.splitlines()) if ln.strip()]`
  * `scanLine` / `scanScript` / `buildLoopsMap` model `_build_loops_map`;
  * `moveForward`, `moveBackward`, `increase`, `decrease`, `printCell`,
    `readCell`, `loopStart`, `loopEnd` model the instruction handlers;
  * `innerLoop` / `outerLoop` / `evalCode` model the dispatch loop of `eval`.

Machine-level conventions: cells are `Nat` (Python ints are unbounded and the
handlers keep cells non-negative); the memory tape is a `List Nat`; positions
are pairs `(line index into the filtered script, column)`.  Fallible steps
return `Except`: `BFError` models the `BrainfuckException` raised at
construction or build time, `RunFault` models the uncaught Python exceptions
that an instruction step can raise (`IndexError` on tape access, `KeyError` on
a jump-table lookup, `ValueError` from `chr`, `TypeError` from `ord("")` at end
of input).  The host's stdout is the `output` field (a list of code points),
stdin is the `input` field.
-/

namespace BFI

/-- A position `(line index, column index)` into the filtered script,
used both as the instruction cursor and as a jump-table key. -/
abbrev Pos := Nat × Nat

/-- Whitespace for Python's `str.strip` (the ASCII whitespace characters). -/
def pyIsSpace (c : Char) : Bool :=
  c = ' ' || c = '\t' || c = '\n' || c = '\x0d' || c = '\x0b' || c = '\x0c'

/-- A line is blank when `ln.strip()` is empty, i.e. every character is
whitespace. -/
def lineBlank (ln : List Char) : Bool :=
  ln.all pyIsSpace

/-- Python `str.splitlines` restricted to the line terminators
`"\r\n"`, `"\r"`, `"\n"`: every terminator ends a line, and trailing
characters after the last terminator form a final line (no trailing empty
line). -/
def splitlinesAux : List Char → List Char → List (List Char)
  | [], acc => if acc.isEmpty then [] else [acc.reverse]
  | '\x0d' :: '\n' :: rest, acc => acc.reverse :: splitlinesAux rest []
  | '\x0d' :: rest, acc => acc.reverse :: splitlinesAux rest []
  | '\n' :: rest, acc => acc.reverse :: splitlinesAux rest []
  | c :: rest, acc => splitlinesAux rest (c :: acc)

/-- `code.splitlines()`. -/
def splitlines (code : List Char) : List (List Char) :=
  splitlinesAux code []

/-- Line 71 of `eval`: keep the non-blank lines, each paired with its
original (raw) line number from `enumerate`. -/
def mkScript (raw : List (List Char)) : List (Nat × List Char) :=
  raw.enum.filter fun p => !(lineBlank p.2)

/-- The `BrainfuckException`s: the two syntax errors of `_build_loops_map`
(with the 1-based line/position numbers appearing in their messages) and the
cell-size error of `__init__`. -/
inductive BFError
  | unexpectedClose (line pos : Nat)
  | unclosed (line pos : Nat)
  | cellSize
deriving DecidableEq, Repr

/-- `__init__`: reject `cell_size < 1`, otherwise record
`_MAX_CELL_VALUE = 2 ** cell_size - 1`. -/
def mkMaxCellValue (cell_size : Int) : Except BFError Nat :=
  if cell_size < 1 then .error .cellSize
  else .ok (2 ^ cell_size.toNat - 1)

/-- The inner `for position, instruction in enumerate(...)` loop of
`_build_loops_map`: `lineNo` is the raw line number `script[line_index][0]`,
`li` the filtered line index, `col` the enumerate counter.  `stack` holds the
pending `(line_no, instruction_position)` pairs, most recent first (Python
appends and pops at the end of the list).  The map is an association list,
most recent insertion first (a Python dict lookup sees the latest
assignment). -/
def scanLine (lineNo li : Nat) :
    Nat → List Char → List (Nat × Pos) → List (Pos × Pos) →
    Except BFError (List (Nat × Pos) × List (Pos × Pos))
  | _, [], stack, m => .ok (stack, m)
  | col, c :: rest, stack, m =>
    if c = '[' then
      scanLine lineNo li (col + 1) rest ((lineNo, (li, col)) :: stack) m
    else if c = ']' then
      match stack with
      | [] => .error (.unexpectedClose (lineNo + 1) (col + 1))
      | s :: stack' =>
        scanLine lineNo li (col + 1) rest stack'
          (((li, col), s.2) :: (s.2, (li, col)) :: m)
    else
      scanLine lineNo li (col + 1) rest stack m

/-- The outer `while line_index < len(self._script)` loop of
`_build_loops_map`. -/
def scanScript :
    Nat → List (Nat × List Char) → List (Nat × Pos) → List (Pos × Pos) →
    Except BFError (List (Nat × Pos) × List (Pos × Pos))
  | _, [], stack, m => .ok (stack, m)
  | li, (lineNo, chars) :: rest, stack, m =>
    match scanLine lineNo li 0 chars stack m with
    | .error e => .error e
    | .ok (stack', m') => scanScript (li + 1) rest stack' m'

/-- `_build_loops_map`: scan the script; afterwards, if the stack is
non-empty, `stack.pop()` takes the most recently appended entry
`bracket_position` and the error reports
`bracket_position[0] + 1` and `bracket_position[1][1] + 1`. -/
def buildLoopsMap (script : List (Nat × List Char)) :
    Except BFError (List (Pos × Pos)) :=
  match scanScript 0 script [] [] with
  | .error e => .error e
  | .ok (stack, m) =>
    match stack with
    | [] => .ok m
    | bp :: _ => .error (.unclosed (bp.1 + 1) (bp.2.2 + 1))

/-- Dict lookup in `_loops_map`: the most recent assignment to a key wins. -/
def lookupPos : List (Pos × Pos) → Pos → Option Pos
  | [], _ => none
  | (k, v) :: rest, p => if k = p then some v else lookupPos rest p

/-- The character of the script at a position. -/
def charAt (script : List (Nat × List Char)) (p : Pos) : Option Char :=
  match script.get? p.1 with
  | some line => line.2.get? p.2
  | none => none

/-- One line of the script as scan entries
`(raw line number, position, character)`, starting at column `col`. -/
def flattenLineFrom (lineNo li : Nat) :
    Nat → List Char → List (Nat × Pos × Char)
  | _, [] => []
  | col, c :: rest =>
    (lineNo, (li, col), c) :: flattenLineFrom lineNo li (col + 1) rest

/-- The whole script as the sequence of scan entries, in line-then-column
scan order, the first line carrying index `li`. -/
def flattenScript : Nat → List (Nat × List Char) → List (Nat × Pos × Char)
  | _, [] => []
  | li, (lineNo, chars) :: rest =>
    flattenLineFrom lineNo li 0 chars ++ flattenScript (li + 1) rest

/-- The single left-to-right fold equivalent to the two nested loops of
`_build_loops_map` (proved equal to `scanScript` below). -/
def scanFlat :
    List (Nat × Pos × Char) → List (Nat × Pos) → List (Pos × Pos) →
    Except BFError (List (Nat × Pos) × List (Pos × Pos))
  | [], stack, m => .ok (stack, m)
  | (lineNo, p, c) :: rest, stack, m =>
    if c = '[' then scanFlat rest ((lineNo, p) :: stack) m
    else if c = ']' then
      match stack with
      | [] => .error (.unexpectedClose (lineNo + 1) (p.2 + 1))
      | s :: stack' => scanFlat rest stack' ((p, s.2) :: (s.2, p) :: m)
    else scanFlat rest stack m

/-- Number of loop-open entries in a scan-entry sequence. -/
def countOpens : List (Nat × Pos × Char) → Nat
  | [] => 0
  | e :: l => (if e.2.2 = '[' then 1 else 0) + countOpens l

/-- Number of loop-close entries in a scan-entry sequence. -/
def countCloses : List (Nat × Pos × Char) → Nat
  | [] => 0
  | e :: l => (if e.2.2 = ']' then 1 else 0) + countCloses l

/-- A balanced entry sequence: equally many opens and closes, and no prefix
with more closes than opens. -/
def balancedF (l : List (Nat × Pos × Char)) : Prop :=
  countOpens l = countCloses l ∧
  ∀ n : Nat, countCloses (l.take n) ≤ countOpens (l.take n)

/-- The run-time state of the evaluator: `_pointer`, `_position`, `_size`,
`_mem`, plus the host's input stream (pending code points on stdin) and
output stream (code points written to stdout so far). -/
structure EvalState where
  pointer : Nat
  position : Pos
  size : Nat
  mem : List Nat
  input : List Nat
  output : List Nat
deriving DecidableEq, Repr

/-- Uncaught Python exceptions an instruction step can raise:
`chr(v)` with `v` outside `range(0x110000)` (ValueError), `ord("")` when
`sys.stdin.read(1)` returns the empty string at end of input (TypeError),
a tape access with the pointer out of range (IndexError), and a missing
jump-table key (KeyError). -/
inductive RunFault
  | chrRange (v : Nat)
  | inputExhausted
  | tapeOutOfRange
  | loopsMapKeyMissing
deriving DecidableEq, Repr

/-- Reading `self._mem[self._pointer]`. -/
def memRead (s : EvalState) : Except RunFault Nat :=
  match s.mem.get? s.pointer with
  | some v => .ok v
  | none => .error .tapeOutOfRange

/-- Assigning `self._mem[self._pointer] = v`. -/
def memWrite (s : EvalState) (v : Nat) : Except RunFault EvalState :=
  if s.pointer < s.mem.length then .ok { s with mem := s.mem.set s.pointer v }
  else .error .tapeOutOfRange

/-- `_expand_buffer`. -/
def expandBuffer (s : EvalState) : EvalState :=
  { s with mem := s.mem ++ [0], size := s.size + 1 }

/-- `_move_forward`. -/
def moveForward (s : EvalState) : EvalState :=
  let s' := if s.pointer + 1 ≥ s.size then expandBuffer s else s
  { s' with pointer := s'.pointer + 1 }

/-- `_move_backward`: `if self._pointer - 1 >= 0` on Python ints is
`1 ≤ pointer`. -/
def moveBackward (s : EvalState) : EvalState :=
  if 1 ≤ s.pointer then { s with pointer := s.pointer - 1 } else s

/-- `_increase`. -/
def increase (M : Nat) (s : EvalState) : Except RunFault EvalState :=
  match memRead s with
  | .error f => .error f
  | .ok v => memWrite s (if v + 1 ≤ M then v + 1 else 0)

/-- `_decrease`: `new_value = v - 1` and `new_value if new_value >= 0 else
MAX`; on a non-negative cell this is `v - 1` when `1 ≤ v` and `MAX` when
`v = 0`. -/
def decrease (M : Nat) (s : EvalState) : Except RunFault EvalState :=
  match memRead s with
  | .error f => .error f
  | .ok v => memWrite s (if 1 ≤ v then v - 1 else M)

/-- The exclusive upper bound of Python's `chr`. -/
def chrLimit : Nat := 1114112

/-- `_print`: `sys.stdout.write(chr(self._mem[self._pointer]))`. -/
def printCell (s : EvalState) : Except RunFault EvalState :=
  match memRead s with
  | .error f => .error f
  | .ok v =>
    if v < chrLimit then .ok { s with output := s.output ++ [v] }
    else .error (.chrRange v)

/-- The code points of the prompt `"Enter a character: "` that `_read`
writes to stdout before reading. -/
def promptCodes : List Nat :=
  "Enter a character: ".toList.map Char.toNat

/-- `_read`: write the prompt to stdout, read one character (an empty read
at end of input makes `ord` raise, aborting the run, so the fault carries
no state), store `ord(char) % self._MAX_CELL_VALUE`. -/
def readCell (M : Nat) (s : EvalState) : Except RunFault EvalState :=
  match s.input with
  | [] => .error .inputExhausted
  | c :: rest =>
    memWrite { s with input := rest, output := s.output ++ promptCodes }
      (c % M)

/-- `_loop_start`: returns `False` (no jump) on a non-zero cell, otherwise
jumps to `self._loops_map[self._position]` and returns `True`. -/
def loopStart (lm : List (Pos × Pos)) (s : EvalState) :
    Except RunFault (Option Bool × EvalState) :=
  match memRead s with
  | .error f => .error f
  | .ok v =>
    if v ≠ 0 then .ok (some false, s)
    else
      match lookupPos lm s.position with
      | some q => .ok (some true, { s with position := q })
      | none => .error .loopsMapKeyMissing

/-- `_loop_end`: returns `False` on a zero cell, otherwise jumps back to
`self._loops_map[self._position]` and returns `True`. -/
def loopEnd (lm : List (Pos × Pos)) (s : EvalState) :
    Except RunFault (Option Bool × EvalState) :=
  match memRead s with
  | .error f => .error f
  | .ok v =>
    if v = 0 then .ok (some false, s)
    else
      match lookupPos lm s.position with
      | some q => .ok (some true, { s with position := q })
      | none => .error .loopsMapKeyMissing

/-- The `_INSTRUCTIONS` table's key set. -/
def isInstr (c : Char) : Bool :=
  c = '>' || c = '<' || c = '+' || c = '-' ||
  c = '.' || c = ',' || c = '[' || c = ']'

/-- Dispatch on one recognized instruction character.  The first component
of the result models the Python return value of the handler: `none` for the
handlers that return `None`, `some b` for `_loop_start` / `_loop_end`. -/
def dispatch (M : Nat) (lm : List (Pos × Pos)) (c : Char) (s : EvalState) :
    Except RunFault (Option Bool × EvalState) :=
  if c = '>' then .ok (none, moveForward s)
  else if c = '<' then .ok (none, moveBackward s)
  else if c = '+' then (increase M s).map fun s' => (none, s')
  else if c = '-' then (decrease M s).map fun s' => (none, s')
  else if c = '.' then (printCell s).map fun s' => (none, s')
  else if c = ',' then (readCell M s).map fun s' => (none, s')
  else if c = '[' then loopStart lm s
  else if c = ']' then loopEnd lm s
  else .ok (none, s)

/-- The inner `while self._position[1] < len(line[1])` loop of `eval`,
called with the suffix of the current line from column `col` onwards, where
`col = s.position.2` (and `li = s.position.1`).  `pc` is the running
`position_changed` value; a handler returning `True` breaks out, otherwise
the cursor advances one column. -/
def innerLoop (M : Nat) (lm : List (Pos × Pos)) (li : Nat) :
    List Char → Nat → Option Bool → EvalState →
    Except RunFault (Option Bool × EvalState)
  | [], _, pc, s => .ok (pc, s)
  | c :: rest, col, pc, s =>
    if isInstr c then
      match dispatch M lm c s with
      | .error f => .error f
      | .ok (pc', s') =>
        if pc' = some true then .ok (pc', s')
        else innerLoop M lm li rest (col + 1) pc'
          { s' with position := (li, col + 1) }
    else
      innerLoop M lm li rest (col + 1) pc { s with position := (li, col + 1) }

/-- Result of running the dispatch loop for a bounded number of outer-loop
iterations. -/
inductive RunResult
  | halted (s : EvalState)
  | fuelOut (s : EvalState)
  | fault (f : RunFault)
deriving DecidableEq, Repr

/-- The outer `while self._position[0] < len(self._script)` loop of `eval`.
`position_changed` starts at `False` for each line; after the inner loop,
`if position_changed is False` advances to the next line (a handler value of
`None` leaves the cursor at end of line, and the next iteration advances). -/
def outerLoop (M : Nat) (lm : List (Pos × Pos))
    (script : List (Nat × List Char)) :
    Nat → EvalState → RunResult
  | 0, s => .fuelOut s
  | fuel + 1, s =>
    match script.get? s.position.1 with
    | none => .halted s
    | some line =>
      match innerLoop M lm s.position.1 (line.2.drop s.position.2)
          s.position.2 (some false) s with
      | .error f => .fault f
      | .ok (pc, s') =>
        let s'' := if pc = some false then
            { s' with position := (s'.position.1 + 1, 0) }
          else s'
        outerLoop M lm script fuel s''

/-- `_reset`: pointer, position, size, script, memory and loop map are
reset; the host streams are not touched. -/
def resetState (s : EvalState) : EvalState :=
  { s with pointer := 0, position := (0, 0), size := 1, mem := [0] }

/-- A fresh run-time state for a run consuming `input`. -/
def initState (input : List Nat) : EvalState :=
  { pointer := 0, position := (0, 0), size := 1, mem := [0],
    input := input, output := [] }

/-- Replace the pending host input stream of a state (used to compare runs
that differ only in the host's stdin). -/
def setInput (j : List Nat) (s : EvalState) : EvalState :=
  { s with input := j }

/-- `setInput` mapped over a run result. -/
def setInputRun (j : List Nat) : RunResult → RunResult
  | .halted s => .halted (setInput j s)
  | .fuelOut s => .fuelOut (setInput j s)
  | .fault f => .fault f

/-- `setInput` mapped over an evaluation result. -/
def setInputEval (j : List Nat) :
    Except BFError RunResult → Except BFError RunResult
  | .error e => .error e
  | .ok r => .ok (setInputRun j r)

/-- `eval`: reset the carried-over instance state, split and filter the
source, build the jump table, then run the dispatch loop.  `input` is the
host's stdin for this run and the `output` of the result is what this run
writes to stdout. -/
def evalCode (M : Nat) (prior : EvalState) (code : List Char)
    (input : List Nat) (fuel : Nat) : Except BFError RunResult :=
  let s0 := { resetState prior with input := input, output := [] }
  let script := mkScript (splitlines code)
  match buildLoopsMap script with
  | .error e => .error e
  | .ok lm => .ok (outerLoop M lm script fuel s0)

/-! ### Basic facts about the handlers -/

theorem memRead_ok_lt {s : EvalState} {v : Nat}
    (h : s.mem.get? s.pointer = some v) : s.pointer < s.mem.length := by
  rcases List.get?_eq_some.mp h with ⟨hlt, _⟩
  exact hlt

theorem one_le_maxCell {w : Nat} (hw : 1 ≤ w) : 1 ≤ 2 ^ w - 1 := by
  have h2 : 2 ^ 1 ≤ 2 ^ w := Nat.pow_le_pow_right (by omega) hw
  omega

/-! ### C4: wraparound arithmetic -/

/-- C4: for every cell width `w ≥ 1` with `MaxCellValue = 2 ^ w - 1`,
incrementing a cell holding `MaxCellValue` wraps it to `0`, decrementing a
cell holding `0` wraps it to `MaxCellValue`, every other cell value is
incremented or decremented by exactly `1`, and the result always stays in
`[0, MaxCellValue]`. -/
theorem claim_C4_wraparound :
    ∀ (w : Nat), 1 ≤ w → ∀ (s : EvalState) (v : Nat),
      s.mem.get? s.pointer = some v → v ≤ 2 ^ w - 1 →
      ∃ s₁ s₂,
        increase (2 ^ w - 1) s = .ok s₁ ∧ decrease (2 ^ w - 1) s = .ok s₂ ∧
        s₁.mem.get? s.pointer = some (if v = 2 ^ w - 1 then 0 else v + 1) ∧
        s₂.mem.get? s.pointer = some (if v = 0 then 2 ^ w - 1 else v - 1) ∧
        (if v = 2 ^ w - 1 then 0 else v + 1) ≤ 2 ^ w - 1 ∧
        (if v = 0 then 2 ^ w - 1 else v - 1) ≤ 2 ^ w - 1 := by
  intro w hw s v hv hle
  have hlt : s.pointer < s.mem.length := memRead_ok_lt hv
  have hM : 1 ≤ 2 ^ w - 1 := one_le_maxCell hw
  have hr : memRead s = .ok v := by
    rw [memRead, hv]
  have hinc : increase (2 ^ w - 1) s =
      .ok { s with
        mem := s.mem.set s.pointer (if v + 1 ≤ 2 ^ w - 1 then v + 1 else 0) } := by
    rw [increase, hr]
    simp [memWrite, hlt]
  have hdec : decrease (2 ^ w - 1) s =
      .ok { s with
        mem := s.mem.set s.pointer (if 1 ≤ v then v - 1 else 2 ^ w - 1) } := by
    rw [decrease, hr]
    simp [memWrite, hlt]
  refine ⟨_, _, hinc, hdec, ?_, ?_, ?_, ?_⟩
  · rw [List.get?_set_eq_of_lt _ hlt]
    congr 1
    split_ifs <;> omega
  · rw [List.get?_set_eq_of_lt _ hlt]
    congr 1
    split_ifs <;> omega
  · split_ifs <;> omega
  · split_ifs <;> omega

/-- Witness for C4 at width `1` on a fresh tape (cell `0`): decrement wraps
`0` to `MaxCellValue = 1`. -/
theorem claim_C4_wraparound_witness :
    (1 ≤ 1 ∧ (initState []).mem.get? (initState []).pointer = some 0 ∧
      0 ≤ 2 ^ 1 - 1) ∧
    (∃ s₁ s₂,
      increase (2 ^ 1 - 1) (initState []) = .ok s₁ ∧
      decrease (2 ^ 1 - 1) (initState []) = .ok s₂ ∧
      s₁.mem.get? (initState []).pointer = some (if 0 = 2 ^ 1 - 1 then 0 else 0 + 1) ∧
      s₂.mem.get? (initState []).pointer = some (if 0 = 0 then 2 ^ 1 - 1 else 0 - 1) ∧
      (if 0 = 2 ^ 1 - 1 then 0 else 0 + 1) ≤ 2 ^ 1 - 1 ∧
      (if 0 = 0 then 2 ^ 1 - 1 else 0 - 1) ≤ 2 ^ 1 - 1) :=
  ⟨⟨by decide, by decide, by decide⟩,
    claim_C4_wraparound 1 (by decide) (initState []) 0 (by decide) (by decide)⟩

/-! ### C5: input stores the code point modulo `MaxCellValue` -/

/-- C5: for every cell width `w ≥ 1`, the input instruction stores
`(code point) % MaxCellValue` — modulo `MaxCellValue`, not
`MaxCellValue + 1` — into the current cell, so the stored value is always
strictly below `MaxCellValue`: the value `MaxCellValue` itself can never be
written by input. -/
theorem claim_C5_input_mod :
    ∀ (w : Nat), 1 ≤ w → ∀ (s : EvalState) (c : Nat) (rest : List Nat),
      s.input = c :: rest → s.pointer < s.mem.length →
      ∃ s', readCell (2 ^ w - 1) s = .ok s' ∧
        s'.mem.get? s.pointer = some (c % (2 ^ w - 1)) ∧
        c % (2 ^ w - 1) < 2 ^ w - 1 := by
  intro w hw s c rest hin hlt
  have hM : 1 ≤ 2 ^ w - 1 := one_le_maxCell hw
  have hs' : readCell (2 ^ w - 1) s =
      .ok { s with
              input := rest,
              output := s.output ++ promptCodes,
              mem := s.mem.set s.pointer (c % (2 ^ w - 1)) } := by
    rw [readCell]
    simp only [hin]
    simp [memWrite, hlt]
  exact ⟨_, hs', List.get?_set_eq_of_lt _ hlt, Nat.mod_lt _ (by omega)⟩

/-- Witness for C5: width `8`, input character with code point `65`. -/
theorem claim_C5_input_mod_witness :
    (1 ≤ 8 ∧ (initState [65]).input = 65 :: [] ∧
      (initState [65]).pointer < (initState [65]).mem.length) ∧
    (∃ s', readCell (2 ^ 8 - 1) (initState [65]) = .ok s' ∧
      s'.mem.get? (initState [65]).pointer = some (65 % (2 ^ 8 - 1)) ∧
      65 % (2 ^ 8 - 1) < 2 ^ 8 - 1) :=
  ⟨⟨by decide, by decide, by decide⟩,
    claim_C5_input_mod 8 (by decide) (initState [65]) 65 [] (by decide) (by decide)⟩

/-! ### Step equations for the dispatch loop -/

theorem dispatch_open (M : Nat) (lm : List (Pos × Pos)) (s : EvalState) :
    dispatch M lm '[' s = loopStart lm s := rfl

theorem dispatch_close (M : Nat) (lm : List (Pos × Pos)) (s : EvalState) :
    dispatch M lm ']' s = loopEnd lm s := rfl

theorem loopStart_zero {lm : List (Pos × Pos)} {s : EvalState} {q : Pos}
    (hr : memRead s = .ok 0) (hq : lookupPos lm s.position = some q) :
    loopStart lm s = .ok (some true, { s with position := q }) := by
  rw [loopStart, hr]
  simp [hq]

theorem loopStart_pos {lm : List (Pos × Pos)} {s : EvalState} {v : Nat}
    (hr : memRead s = .ok v) (hv : v ≠ 0) :
    loopStart lm s = .ok (some false, s) := by
  rw [loopStart, hr]
  simp [hv]

theorem loopEnd_pos {lm : List (Pos × Pos)} {s : EvalState} {v : Nat} {q : Pos}
    (hr : memRead s = .ok v) (hv : v ≠ 0)
    (hq : lookupPos lm s.position = some q) :
    loopEnd lm s = .ok (some true, { s with position := q }) := by
  rw [loopEnd, hr]
  simp [hv, hq]

theorem loopEnd_zero {lm : List (Pos × Pos)} {s : EvalState}
    (hr : memRead s = .ok 0) :
    loopEnd lm s = .ok (some false, s) := by
  rw [loopEnd, hr]
  simp

theorem innerLoop_cons_jump {M : Nat} {lm : List (Pos × Pos)}
    {li col : Nat} {c : Char} {rest : List Char} {pc : Option Bool}
    {s s' : EvalState}
    (hc : isInstr c = true) (hd : dispatch M lm c s = .ok (some true, s')) :
    innerLoop M lm li (c :: rest) col pc s = .ok (some true, s') := by
  simp only [innerLoop, hc, if_true, hd]

theorem innerLoop_cons_step {M : Nat} {lm : List (Pos × Pos)}
    {li col : Nat} {c : Char} {rest : List Char} {pc pc' : Option Bool}
    {s s' : EvalState}
    (hc : isInstr c = true) (hd : dispatch M lm c s = .ok (pc', s'))
    (ht : pc' ≠ some true) :
    innerLoop M lm li (c :: rest) col pc s =
      innerLoop M lm li rest (col + 1) pc'
        { s' with position := (li, col + 1) } := by
  simp only [innerLoop, hc, if_true, hd, ht, if_neg, if_false]

theorem innerLoop_cons_fault {M : Nat} {lm : List (Pos × Pos)}
    {li col : Nat} {c : Char} {rest : List Char} {pc : Option Bool}
    {s : EvalState} {f : RunFault}
    (hc : isInstr c = true) (hd : dispatch M lm c s = .error f) :
    innerLoop M lm li (c :: rest) col pc s = .error f := by
  simp only [innerLoop, hc, if_true, hd]

theorem innerLoop_cons_skip {M : Nat} {lm : List (Pos × Pos)}
    {li col : Nat} {c : Char} {rest : List Char} {pc : Option Bool}
    {s : EvalState} (hc : isInstr c = false) :
    innerLoop M lm li (c :: rest) col pc s =
      innerLoop M lm li rest (col + 1) pc
        { s with position := (li, col + 1) } := by
  simp only [innerLoop, hc, Bool.false_eq_true, if_false]

/-! ### C6: loop delimiter semantics -/

/-- C6: when a loop-open executes with the current cell `0`, the cursor
jumps directly to the matching loop-close position (the inner loop breaks,
so that position is re-examined by the next dispatch step); with a nonzero
cell the cursor advances one column.  Symmetrically, a loop-close with a
nonzero cell jumps back to the matching loop-open position (re-examined
next), and with a zero cell the cursor advances one column. -/
theorem claim_C6_loop_jumps :
    ∀ (M : Nat) (lm : List (Pos × Pos)) (li col : Nat) (rest : List Char)
      (pc : Option Bool) (s : EvalState) (v : Nat) (q : Pos),
      s.position = (li, col) → s.mem.get? s.pointer = some v →
      lookupPos lm (li, col) = some q →
      ((v = 0 →
          innerLoop M lm li ('[' :: rest) col pc s =
            .ok (some true, { s with position := q })) ∧
        (v ≠ 0 →
          innerLoop M lm li ('[' :: rest) col pc s =
            innerLoop M lm li rest (col + 1) (some false)
              { s with position := (li, col + 1) }) ∧
        (v ≠ 0 →
          innerLoop M lm li (']' :: rest) col pc s =
            .ok (some true, { s with position := q })) ∧
        (v = 0 →
          innerLoop M lm li (']' :: rest) col pc s =
            innerLoop M lm li rest (col + 1) (some false)
              { s with position := (li, col + 1) })) := by
  intro M lm li col rest pc s v q hpos hv hq
  have hr : memRead s = .ok v := by rw [memRead, hv]
  have hq' : lookupPos lm s.position = some q := by rw [hpos]; exact hq
  refine ⟨?_, ?_, ?_, ?_⟩
  · intro h0
    subst h0
    exact innerLoop_cons_jump (by decide)
      ((dispatch_open M lm s).trans (loopStart_zero hr hq'))
  · intro hne
    exact innerLoop_cons_step (by decide)
      ((dispatch_open M lm s).trans (loopStart_pos hr hne)) (by simp)
  · intro hne
    exact innerLoop_cons_jump (by decide)
      ((dispatch_close M lm s).trans (loopEnd_pos hr hne hq'))
  · intro h0
    subst h0
    exact innerLoop_cons_step (by decide)
      ((dispatch_close M lm s).trans (loopEnd_zero hr)) (by simp)

/-- Witness for C6 on the script `[-]` with its jump table: the open at
`(0,0)`, cell `0`, matching close `(0,2)`. -/
theorem claim_C6_loop_jumps_witness :
    ((initState []).position = (0, 0) ∧
      (initState []).mem.get? (initState []).pointer = some 0 ∧
      lookupPos [((0, 2), (0, 0)), ((0, 0), (0, 2))] (0, 0) = some (0, 2)) ∧
    ((0 = 0 →
        innerLoop 255 [((0, 2), (0, 0)), ((0, 0), (0, 2))] 0
            ('[' :: ['-', ']']) 0 (some false) (initState []) =
          .ok (some true, { initState [] with position := (0, 2) })) ∧
      (0 ≠ 0 →
        innerLoop 255 [((0, 2), (0, 0)), ((0, 0), (0, 2))] 0
            ('[' :: ['-', ']']) 0 (some false) (initState []) =
          innerLoop 255 [((0, 2), (0, 0)), ((0, 0), (0, 2))] 0
            ['-', ']'] (0 + 1) (some false)
            { initState [] with position := (0, 0 + 1) }) ∧
      (0 ≠ 0 →
        innerLoop 255 [((0, 2), (0, 0)), ((0, 0), (0, 2))] 0
            (']' :: ['-', ']']) 0 (some false) (initState []) =
          .ok (some true, { initState [] with position := (0, 2) })) ∧
      (0 = 0 →
        innerLoop 255 [((0, 2), (0, 0)), ((0, 0), (0, 2))] 0
            (']' :: ['-', ']']) 0 (some false) (initState []) =
          innerLoop 255 [((0, 2), (0, 0)), ((0, 0), (0, 2))] 0
            ['-', ']'] (0 + 1) (some false)
            { initState [] with position := (0, 0 + 1) })) :=
  ⟨⟨rfl, rfl, rfl⟩,
    claim_C6_loop_jumps 255 [((0, 2), (0, 0)), ((0, 0), (0, 2))] 0 0
      ['-', ']'] (some false) (initState []) 0 (0, 2) rfl rfl rfl⟩

/-! ### The pointer/tape invariant -/

/-- The structural invariant of the run-time state: the pointer is inside
the tape and `_size` tracks the tape length. -/
abbrev Valid (s : EvalState) : Prop :=
  s.pointer < s.size ∧ s.size = s.mem.length

theorem memWrite_ok_frame {s : EvalState} {v : Nat} {s' : EvalState}
    (h : memWrite s v = .ok s') :
    s'.pointer = s.pointer ∧ s'.position = s.position ∧ s'.size = s.size ∧
      s'.mem.length = s.mem.length := by
  unfold memWrite at h
  split at h
  · cases h
    simp [List.length_set]
  · cases h

theorem moveForward_eq_of_ge {s : EvalState} (h : s.pointer + 1 ≥ s.size) :
    moveForward s =
      { s with
          mem := s.mem ++ [0],
          size := s.size + 1,
          pointer := s.pointer + 1 } := by
  unfold moveForward expandBuffer
  simp only [h, if_true]

theorem moveForward_eq_of_lt {s : EvalState} (h : ¬ s.pointer + 1 ≥ s.size) :
    moveForward s = { s with pointer := s.pointer + 1 } := by
  unfold moveForward
  simp only [h, if_false]

theorem moveForward_valid {s : EvalState} (hs : Valid s) :
    Valid (moveForward s) ∧ s.mem.length ≤ (moveForward s).mem.length := by
  obtain ⟨h1, h2⟩ := hs
  by_cases h : s.pointer + 1 ≥ s.size
  · rw [moveForward_eq_of_ge h]
    refine ⟨⟨?_, ?_⟩, ?_⟩ <;> simp <;> omega
  · rw [moveForward_eq_of_lt h]
    refine ⟨⟨?_, ?_⟩, ?_⟩ <;> simp <;> omega

theorem moveBackward_valid {s : EvalState} (hs : Valid s) :
    Valid (moveBackward s) ∧ s.mem.length ≤ (moveBackward s).mem.length := by
  obtain ⟨h1, h2⟩ := hs
  unfold moveBackward
  by_cases h : 1 ≤ s.pointer
  · rw [if_pos h]
    refine ⟨⟨?_, ?_⟩, ?_⟩ <;> simp <;> omega
  · rw [if_neg h]
    exact ⟨⟨h1, h2⟩, le_refl _⟩

theorem increase_ok_frame {M : Nat} {s s' : EvalState}
    (h : increase M s = .ok s') :
    s'.pointer = s.pointer ∧ s'.position = s.position ∧ s'.size = s.size ∧
      s'.mem.length = s.mem.length := by
  unfold increase at h
  cases hm : memRead s with
  | error f => rw [hm] at h; cases h
  | ok v => rw [hm] at h; exact memWrite_ok_frame h

theorem decrease_ok_frame {M : Nat} {s s' : EvalState}
    (h : decrease M s = .ok s') :
    s'.pointer = s.pointer ∧ s'.position = s.position ∧ s'.size = s.size ∧
      s'.mem.length = s.mem.length := by
  unfold decrease at h
  cases hm : memRead s with
  | error f => rw [hm] at h; cases h
  | ok v => rw [hm] at h; exact memWrite_ok_frame h

theorem printCell_ok_frame {s s' : EvalState} (h : printCell s = .ok s') :
    s'.pointer = s.pointer ∧ s'.position = s.position ∧ s'.size = s.size ∧
      s'.mem = s.mem := by
  unfold printCell at h
  cases hm : memRead s with
  | error f => rw [hm] at h; cases h
  | ok v =>
    rw [hm] at h
    dsimp only at h
    by_cases hv : v < chrLimit
    · rw [if_pos hv] at h
      cases h
      exact ⟨rfl, rfl, rfl, rfl⟩
    · rw [if_neg hv] at h
      cases h

theorem readCell_ok_frame {M : Nat} {s s' : EvalState}
    (h : readCell M s = .ok s') :
    s'.pointer = s.pointer ∧ s'.position = s.position ∧ s'.size = s.size ∧
      s'.mem.length = s.mem.length := by
  unfold readCell at h
  cases hin : s.input with
  | nil => rw [hin] at h; cases h
  | cons c rest =>
    rw [hin] at h
    have := memWrite_ok_frame h
    simpa using this

theorem loopStart_ok_frame {lm : List (Pos × Pos)} {s : EvalState}
    {pc' : Option Bool} {s' : EvalState}
    (h : loopStart lm s = .ok (pc', s')) :
    s'.pointer = s.pointer ∧ s'.size = s.size ∧ s'.mem = s.mem := by
  unfold loopStart at h
  cases hm : memRead s with
  | error f => rw [hm] at h; cases h
  | ok v =>
    rw [hm] at h
    dsimp only at h
    by_cases hv : v ≠ 0
    · rw [if_pos hv] at h
      cases h
      exact ⟨rfl, rfl, rfl⟩
    · rw [if_neg hv] at h
      cases hl : lookupPos lm s.position with
      | some q => rw [hl] at h; cases h; exact ⟨rfl, rfl, rfl⟩
      | none => rw [hl] at h; cases h

theorem loopEnd_ok_frame {lm : List (Pos × Pos)} {s : EvalState}
    {pc' : Option Bool} {s' : EvalState}
    (h : loopEnd lm s = .ok (pc', s')) :
    s'.pointer = s.pointer ∧ s'.size = s.size ∧ s'.mem = s.mem := by
  unfold loopEnd at h
  cases hm : memRead s with
  | error f => rw [hm] at h; cases h
  | ok v =>
    rw [hm] at h
    dsimp only at h
    by_cases hv : v = 0
    · rw [if_pos hv] at h
      cases h
      exact ⟨rfl, rfl, rfl⟩
    · rw [if_neg hv] at h
      cases hl : lookupPos lm s.position with
      | some q => rw [hl] at h; cases h; exact ⟨rfl, rfl, rfl⟩
      | none => rw [hl] at h; cases h

theorem dispatch_ok_valid {M : Nat} {lm : List (Pos × Pos)} {c : Char}
    {s : EvalState} {pc' : Option Bool} {s' : EvalState}
    (hs : Valid s) (hd : dispatch M lm c s = .ok (pc', s')) :
    Valid s' ∧ s.mem.length ≤ s'.mem.length := by
  unfold dispatch at hd
  split_ifs at hd
  · cases hd
    exact moveForward_valid hs
  · cases hd
    exact moveBackward_valid hs
  · cases hi : increase M s with
    | error f => rw [hi] at hd; cases hd
    | ok t =>
      rw [hi] at hd
      cases hd
      obtain ⟨e1, _, e3, e4⟩ := increase_ok_frame hi
      exact ⟨⟨by omega, by omega⟩, by omega⟩
  · cases hi : decrease M s with
    | error f => rw [hi] at hd; cases hd
    | ok t =>
      rw [hi] at hd
      cases hd
      obtain ⟨e1, _, e3, e4⟩ := decrease_ok_frame hi
      exact ⟨⟨by omega, by omega⟩, by omega⟩
  · cases hi : printCell s with
    | error f => rw [hi] at hd; cases hd
    | ok t =>
      rw [hi] at hd
      cases hd
      obtain ⟨e1, _, e3, e4⟩ := printCell_ok_frame hi
      exact ⟨⟨by omega, by rw [e3, e4]; exact hs.2⟩, by rw [e4]⟩
  · cases hi : readCell M s with
    | error f => rw [hi] at hd; cases hd
    | ok t =>
      rw [hi] at hd
      cases hd
      obtain ⟨e1, _, e3, e4⟩ := readCell_ok_frame hi
      exact ⟨⟨by omega, by omega⟩, by omega⟩
  · obtain ⟨e1, e2, e3⟩ := loopStart_ok_frame hd
    exact ⟨⟨by omega, by rw [e2, e3]; exact hs.2⟩, by rw [e3]⟩
  · obtain ⟨e1, e2, e3⟩ := loopEnd_ok_frame hd
    exact ⟨⟨by omega, by rw [e2, e3]; exact hs.2⟩, by rw [e3]⟩
  · cases hd
    exact ⟨hs, le_refl _⟩

theorem innerLoop_ok_valid {M : Nat} {lm : List (Pos × Pos)} {li : Nat} :
    ∀ {chars : List Char} {col : Nat} {pc : Option Bool} {s : EvalState}
      {pc' : Option Bool} {s' : EvalState},
      Valid s → innerLoop M lm li chars col pc s = .ok (pc', s') →
      Valid s' ∧ s.mem.length ≤ s'.mem.length := by
  intro chars
  induction chars with
  | nil =>
    intro col pc s pc' s' hs h
    cases h
    exact ⟨hs, le_refl _⟩
  | cons c rest ih =>
    intro col pc s pc' s' hs h
    by_cases hc : isInstr c
    · cases hd : dispatch M lm c s with
      | error f => rw [innerLoop_cons_fault hc hd] at h; cases h
      | ok r =>
        obtain ⟨pc₁, s₁⟩ := r
        obtain ⟨hv₁, hm₁⟩ := dispatch_ok_valid hs hd
        by_cases ht : pc₁ = some true
        · subst ht
          rw [innerLoop_cons_jump hc hd] at h
          cases h
          exact ⟨hv₁, hm₁⟩
        · rw [innerLoop_cons_step hc hd ht] at h
          have hv₂ : Valid { s₁ with position := (li, col + 1) } := hv₁
          obtain ⟨hv', hm'⟩ := ih hv₂ h
          exact ⟨hv', le_trans hm₁ hm'⟩
    · rw [innerLoop_cons_skip (by simpa using hc)] at h
      have hv₂ : Valid { s with position := (li, col + 1) } := hs
      obtain ⟨hv', hm'⟩ := ih hv₂ h
      exact ⟨hv', hm'⟩

theorem outerLoop_valid {M : Nat} {lm : List (Pos × Pos)}
    {script : List (Nat × List Char)} :
    ∀ {fuel : Nat} {s s' : EvalState},
      Valid s →
      (outerLoop M lm script fuel s = .halted s' ∨
        outerLoop M lm script fuel s = .fuelOut s') →
      Valid s' ∧ s.mem.length ≤ s'.mem.length := by
  intro fuel
  induction fuel with
  | zero =>
    intro s s' hs h
    rcases h with h | h
    · cases h
    · cases h
      exact ⟨hs, le_refl _⟩
  | succ n ih =>
    intro s s' hs h
    rw [outerLoop] at h
    cases hg : script.get? s.position.1 with
    | none =>
      rw [hg] at h
      dsimp only at h
      rcases h with h | h
      · cases h
        exact ⟨hs, le_refl _⟩
      · cases h
    | some line =>
      rw [hg] at h
      dsimp only at h
      cases hi : innerLoop M lm s.position.1 (line.2.drop s.position.2)
          s.position.2 (some false) s with
      | error f =>
        rw [hi] at h
        dsimp only at h
        rcases h with h | h <;> cases h
      | ok r =>
        obtain ⟨pc, s₁⟩ := r
        rw [hi] at h
        dsimp only at h
        obtain ⟨hv₁, hm₁⟩ := innerLoop_ok_valid hs hi
        by_cases hpc : pc = some false
        · rw [if_pos hpc] at h
          have hv₂ : Valid { s₁ with position := (s₁.position.1 + 1, 0) } := hv₁
          obtain ⟨hv', hm'⟩ := ih hv₂ h
          exact ⟨hv', le_trans hm₁ hm'⟩
        · rw [if_neg hpc] at h
          obtain ⟨hv', hm'⟩ := ih hv₁ h
          exact ⟨hv', le_trans hm₁ hm'⟩

/-! ### C7: pointer stays in bounds, tape never shrinks -/

/-- C7: the pointer always stays inside the tape.  Move-left at pointer `0`
is a no-op; move-right appends exactly one zero cell when `pointer + 1`
would reach past the tape and then increments the pointer (and otherwise
just increments it); and along every run (any number of outer-loop
iterations, captured by every fuel value) the state invariant
`pointer < tape length` is preserved and the tape length never decreases. -/
theorem claim_C7_pointer_invariant :
    (∀ s : EvalState, s.pointer = 0 → moveBackward s = s) ∧
    (∀ s : EvalState, s.pointer + 1 ≥ s.size →
      (moveForward s).mem = s.mem ++ [0] ∧
      (moveForward s).pointer = s.pointer + 1 ∧
      (moveForward s).size = s.size + 1) ∧
    (∀ s : EvalState, s.pointer + 1 < s.size →
      (moveForward s).mem = s.mem ∧
      (moveForward s).pointer = s.pointer + 1 ∧
      (moveForward s).size = s.size) ∧
    (∀ (M : Nat) (lm : List (Pos × Pos)) (script : List (Nat × List Char))
      (fuel : Nat) (s s' : EvalState),
      Valid s →
      (outerLoop M lm script fuel s = .halted s' ∨
        outerLoop M lm script fuel s = .fuelOut s') →
      s'.pointer < s'.mem.length ∧ s.mem.length ≤ s'.mem.length) := by
  refine ⟨?_, ?_, ?_, ?_⟩
  · intro s h0
    unfold moveBackward
    rw [if_neg (by omega)]
  · intro s h
    unfold moveForward expandBuffer
    rw [if_pos h]
    exact ⟨rfl, rfl, rfl⟩
  · intro s h
    unfold moveForward
    rw [if_neg (by omega)]
    exact ⟨rfl, rfl, rfl⟩
  · intro M lm script fuel s s' hs h
    obtain ⟨⟨h1, h2⟩, hm⟩ := outerLoop_valid hs h
    exact ⟨by omega, hm⟩

/-- Witness for C7: concrete instances of all four conjuncts (fresh state;
a state with room to the right; and the two-iteration run of `+`). -/
theorem claim_C7_pointer_invariant_witness :
    (moveBackward (initState []) = initState []) ∧
    ((moveForward (initState [])).mem = [0] ++ [0] ∧
      (moveForward (initState [])).pointer = 0 + 1 ∧
      (moveForward (initState [])).size = 1 + 1) ∧
    (let s2 : EvalState := { initState [] with size := 2, mem := [0, 0] }
     (moveForward s2).mem = [0, 0] ∧
      (moveForward s2).pointer = 0 + 1 ∧
      (moveForward s2).size = 2) ∧
    (Valid (initState []) ∧
      ((outerLoop 255 [] [(0, ['+'])] 3 (initState []) =
          .halted { initState [] with position := (1, 0), mem := [1] }) ∨
        (outerLoop 255 [] [(0, ['+'])] 3 (initState []) =
          .fuelOut { initState [] with position := (1, 0), mem := [1] })) ∧
      ({ initState [] with position := (1, 0), mem := [1] } :
          EvalState).pointer <
        ({ initState [] with position := (1, 0), mem := [1] } :
          EvalState).mem.length ∧
      (initState []).mem.length ≤
        ({ initState [] with position := (1, 0), mem := [1] } :
          EvalState).mem.length) := by
  refine ⟨claim_C7_pointer_invariant.1 (initState []) rfl,
    ?_, ?_, ?_⟩
  · have := claim_C7_pointer_invariant.2.1 (initState []) (by decide)
    simpa using this
  · have := claim_C7_pointer_invariant.2.2.1
      { initState [] with size := 2, mem := [0, 0] } (by decide)
    simpa using this
  · refine ⟨by decide, Or.inl (by decide), ?_⟩
    exact claim_C7_pointer_invariant.2.2.2 255 [] [(0, ['+'])] 3
      (initState []) _ (by decide) (Or.inl (by decide))

/-! ### Counterexamples for C1, C3, C9 -/

/-- C1 counterexample: the program `[[` has two unmatched opens.  The claim
says the reported 1-based position is that of the first-opened unmatched
bracket, `(1, 1)`; the build instead reports `(1, 2)`, the most recently
opened one (`stack.pop()` takes the top of the stack). -/
theorem claim_C1_counterexample :
    buildLoopsMap (mkScript (splitlines "[[".toList)) =
      .error (.unclosed 1 2) ∧
    buildLoopsMap (mkScript (splitlines "[[".toList)) ≠
      .error (.unclosed 1 1) := by
  have h : buildLoopsMap (mkScript (splitlines "[[".toList)) =
      .error (.unclosed 1 2) := by rfl
  refine ⟨h, ?_⟩
  rw [h]
  simp

/-- C3 counterexample: for the source `"\n]"` (first line blank, `]` on the
second raw line), the claim says the error is reported with filtered line
numbering (line `1`); the build instead reports the raw line number `2`. -/
theorem claim_C3_counterexample :
    buildLoopsMap (mkScript (splitlines "\n]".toList)) =
      .error (.unexpectedClose 2 1) ∧
    buildLoopsMap (mkScript (splitlines "\n]".toList)) ≠
      .error (.unexpectedClose 1 1) := by
  have h : buildLoopsMap (mkScript (splitlines "\n]".toList)) =
      .error (.unexpectedClose 2 1) := by rfl
  refine ⟨h, ?_⟩
  rw [h]
  simp

/-- C9 counterexample: with the valid cell width `22` and the program
`",+."` (whose jump table builds successfully), reading the character
`U+10FFFF`, incrementing, and printing raises `ValueError` from
`chr(1114112)`: a runtime fault surfaced during instruction execution. -/
theorem claim_C9_counterexample :
    buildLoopsMap (mkScript (splitlines ",+.".toList)) = .ok [] ∧
    evalCode (2 ^ 22 - 1) (initState []) ",+.".toList [1114111] 1 =
      .ok (.fault (.chrRange 1114112)) := by
  constructor
  · rfl
  · rfl

/-! ### The nested scan equals the flat scan -/

theorem scanFlat_append (l1 l2 : List (Nat × Pos × Char)) :
    ∀ (st : List (Nat × Pos)) (m : List (Pos × Pos)),
      scanFlat (l1 ++ l2) st m =
        match scanFlat l1 st m with
        | .error e => .error e
        | .ok (st', m') => scanFlat l2 st' m' := by
  induction l1 with
  | nil => intro st m; rfl
  | cons e l1 ih =>
    intro st m
    obtain ⟨ln, p, c⟩ := e
    by_cases hc1 : c = '['
    · simp only [List.cons_append, scanFlat, hc1, if_true]
      exact ih _ _
    · by_cases hc2 : c = ']'
      · simp only [List.cons_append, scanFlat, hc1, hc2, if_true, if_false]
        cases st with
        | nil => rfl
        | cons t st' => exact ih _ _
      · simp only [List.cons_append, scanFlat, hc1, hc2, if_false]
        exact ih _ _

theorem scanLine_eq_flat (lineNo li : Nat) :
    ∀ (chars : List Char) (col : Nat) (st : List (Nat × Pos))
      (m : List (Pos × Pos)),
      scanLine lineNo li col chars st m =
        scanFlat (flattenLineFrom lineNo li col chars) st m := by
  intro chars
  induction chars with
  | nil => intro col st m; rfl
  | cons c rest ih =>
    intro col st m
    by_cases hc1 : c = '['
    · simp only [scanLine, flattenLineFrom, scanFlat, hc1, if_true]
      exact ih _ _ _
    · by_cases hc2 : c = ']'
      · simp only [scanLine, flattenLineFrom, scanFlat, hc1, hc2, if_true,
          if_false]
        cases st with
        | nil => rfl
        | cons t st' => exact ih _ _ _
      · simp only [scanLine, flattenLineFrom, scanFlat, hc1, hc2, if_false]
        exact ih _ _ _

theorem scanScript_eq_flat :
    ∀ (script : List (Nat × List Char)) (li : Nat) (st : List (Nat × Pos))
      (m : List (Pos × Pos)),
      scanScript li script st m = scanFlat (flattenScript li script) st m := by
  intro script
  induction script with
  | nil => intro li st m; rfl
  | cons line rest ih =>
    intro li st m
    obtain ⟨lineNo, chars⟩ := line
    simp only [scanScript, flattenScript]
    rw [scanLine_eq_flat, scanFlat_append]
    cases scanFlat (flattenLineFrom lineNo li 0 chars) st m with
    | error e => rfl
    | ok r => exact ih _ _ _

/-! ### Flattening: membership and distinctness of positions -/

theorem mem_flattenLineFrom {lineNo li : Nat} :
    ∀ {chars : List Char} {col : Nat} {e : Nat × Pos × Char},
      e ∈ flattenLineFrom lineNo li col chars →
      e.1 = lineNo ∧ e.2.1.1 = li ∧ col ≤ e.2.1.2 ∧
        chars.get? (e.2.1.2 - col) = some e.2.2 := by
  intro chars
  induction chars with
  | nil =>
    intro col e h
    simp [flattenLineFrom] at h
  | cons c rest ih =>
    intro col e h
    simp only [flattenLineFrom, List.mem_cons] at h
    rcases h with rfl | h
    · exact ⟨rfl, rfl, le_refl _, by simp⟩
    · obtain ⟨h1, h2, h3, h4⟩ := ih h
      refine ⟨h1, h2, by omega, ?_⟩
      have he : e.2.1.2 - col = (e.2.1.2 - (col + 1)) + 1 := by omega
      rw [he]
      simpa using h4

theorem mem_flattenScript :
    ∀ {script : List (Nat × List Char)} {li : Nat} {e : Nat × Pos × Char},
      e ∈ flattenScript li script →
      li ≤ e.2.1.1 ∧
      ∃ line, script.get? (e.2.1.1 - li) = some (e.1, line) ∧
        line.get? e.2.1.2 = some e.2.2 := by
  intro script
  induction script with
  | nil =>
    intro li e h
    simp [flattenScript] at h
  | cons hd rest ih =>
    intro li e h
    obtain ⟨lineNo, chars⟩ := hd
    simp only [flattenScript, List.mem_append] at h
    rcases h with h | h
    · obtain ⟨h1, h2, _, h4⟩ := mem_flattenLineFrom h
      refine ⟨by omega, chars, ?_, by simpa using h4⟩
      have he : e.2.1.1 - li = 0 := by omega
      rw [he, h1]
      rfl
    · obtain ⟨h1, line, h2, h3⟩ := ih h
      refine ⟨by omega, line, ?_, h3⟩
      have he : e.2.1.1 - li = (e.2.1.1 - (li + 1)) + 1 := by omega
      rw [he]
      simpa using h2

theorem flattenLineFrom_mem_of_get {lineNo li : Nat} :
    ∀ {chars : List Char} {col k : Nat} {c : Char},
      chars.get? k = some c →
      (lineNo, ((li, col + k) : Pos), c) ∈ flattenLineFrom lineNo li col chars := by
  intro chars
  induction chars with
  | nil =>
    intro col k c h
    simp at h
  | cons d rest ih =>
    intro col k c h
    cases k with
    | zero =>
      simp only [List.get?_cons_zero, Option.some_inj] at h
      subst h
      simp [flattenLineFrom]
    | succ k' =>
      simp only [List.get?_cons_succ] at h
      simp only [flattenLineFrom, List.mem_cons]
      right
      have he : col + (k' + 1) = (col + 1) + k' := by omega
      rw [he]
      exact ih h

theorem flattenScript_mem_of_get :
    ∀ {script : List (Nat × List Char)} {li j ln : Nat} {line : List Char}
      {k : Nat} {c : Char},
      script.get? j = some (ln, line) → line.get? k = some c →
      (ln, ((li + j, k) : Pos), c) ∈ flattenScript li script := by
  intro script
  induction script with
  | nil =>
    intro li j ln line k c h
    simp at h
  | cons hd rest ih =>
    intro li j ln line k c hg hk
    obtain ⟨lineNo, chars⟩ := hd
    cases j with
    | zero =>
      simp only [List.get?_cons_zero, Option.some_inj] at hg
      cases hg
      simp only [flattenScript, List.mem_append]
      left
      have h0 := @flattenLineFrom_mem_of_get ln li line 0 k c hk
      simpa using h0
    | succ j' =>
      simp only [List.get?_cons_succ] at hg
      simp only [flattenScript, List.mem_append]
      right
      have he : li + (j' + 1) = (li + 1) + j' := by omega
      rw [he]
      exact ih hg hk

theorem nodup_flattenLineFrom {lineNo li : Nat} :
    ∀ (chars : List Char) (col : Nat),
      ((flattenLineFrom lineNo li col chars).map fun e => e.2.1).Nodup := by
  intro chars
  induction chars with
  | nil =>
    intro col
    simp [flattenLineFrom]
  | cons c rest ih =>
    intro col
    simp only [flattenLineFrom, List.map_cons, List.nodup_cons]
    refine ⟨?_, ih _⟩
    intro hmem
    simp only [List.mem_map] at hmem
    obtain ⟨e, he, hpe⟩ := hmem
    obtain ⟨_, _, h3, _⟩ := mem_flattenLineFrom he
    rw [hpe] at h3
    omega

theorem nodup_flattenScript :
    ∀ (script : List (Nat × List Char)) (li : Nat),
      ((flattenScript li script).map fun e => e.2.1).Nodup := by
  intro script
  induction script with
  | nil =>
    intro li
    simp [flattenScript]
  | cons hd rest ih =>
    intro li
    obtain ⟨lineNo, chars⟩ := hd
    simp only [flattenScript, List.map_append]
    rw [List.nodup_append]
    refine ⟨nodup_flattenLineFrom _ _, ih _, ?_⟩
    intro p hp1 hp2
    simp only [List.mem_map] at hp1 hp2
    obtain ⟨e1, he1, hpe1⟩ := hp1
    obtain ⟨e2, he2, hpe2⟩ := hp2
    obtain ⟨_, h2, _, _⟩ := mem_flattenLineFrom he1
    obtain ⟨h1', _⟩ := mem_flattenScript he2
    rw [hpe1] at h2
    rw [hpe2] at h1'
    omega

/-! ### The scan invariant: the map is a symmetric pairing covering all
brackets -/

theorem lookupPos_cons (k v : Pos) (m : List (Pos × Pos)) (p : Pos) :
    lookupPos ((k, v) :: m) p = if k = p then some v else lookupPos m p := rfl

theorem scanFlat_cons_open {ln : Nat} {p : Pos} {c : Char}
    {rest : List (Nat × Pos × Char)} {st : List (Nat × Pos)}
    {m : List (Pos × Pos)} (hc : c = '[') :
    scanFlat ((ln, p, c) :: rest) st m = scanFlat rest ((ln, p) :: st) m := by
  subst hc
  rfl

theorem scanFlat_cons_close_nil {ln : Nat} {p : Pos} {c : Char}
    {rest : List (Nat × Pos × Char)} {m : List (Pos × Pos)} (hc : c = ']') :
    scanFlat ((ln, p, c) :: rest) [] m =
      .error (.unexpectedClose (ln + 1) (p.2 + 1)) := by
  subst hc
  rfl

theorem scanFlat_cons_close_cons {ln : Nat} {p : Pos} {c : Char}
    {rest : List (Nat × Pos × Char)} {t : Nat × Pos} {st : List (Nat × Pos)}
    {m : List (Pos × Pos)} (hc : c = ']') :
    scanFlat ((ln, p, c) :: rest) (t :: st) m =
      scanFlat rest st ((p, t.2) :: (t.2, p) :: m) := by
  subst hc
  rfl

theorem scanFlat_cons_other {ln : Nat} {p : Pos} {c : Char}
    {rest : List (Nat × Pos × Char)} {st : List (Nat × Pos)}
    {m : List (Pos × Pos)} (hc1 : c ≠ '[') (hc2 : c ≠ ']') :
    scanFlat ((ln, p, c) :: rest) st m = scanFlat rest st m := by
  simp only [scanFlat, hc1, hc2, if_false]

/-- The master invariant of the flat scan.  Assuming the entries still to be
scanned have pairwise distinct positions, fresh with respect to the map
keys and the stack, the stack holds loop-open positions that are not map
keys, and the map is a symmetric open/close pairing, a successful scan
produces a map that is again a symmetric pairing; old keys survive; every
initial stack entry ends up a map key or still on the stack; and every
bracket entry scanned ends up a map key or on the final stack. -/
theorem scanFlat_invariant (isOp isCl : Pos → Prop) :
    ∀ (l : List (Nat × Pos × Char)) (st : List (Nat × Pos))
      (m : List (Pos × Pos)) (st' : List (Nat × Pos)) (m' : List (Pos × Pos)),
      scanFlat l st m = .ok (st', m') →
      (∀ e ∈ l, (e.2.2 = '[' → isOp e.2.1) ∧ (e.2.2 = ']' → isCl e.2.1)) →
      (l.map fun e => e.2.1).Nodup →
      (∀ e ∈ l, lookupPos m e.2.1 = none) →
      (∀ e ∈ l, ∀ t ∈ st, e.2.1 ≠ t.2) →
      (∀ t ∈ st, isOp t.2) →
      (st.map fun t => t.2).Nodup →
      (∀ t ∈ st, lookupPos m t.2 = none) →
      (∀ k v, lookupPos m k = some v →
        lookupPos m v = some k ∧ k ≠ v ∧
        ((isOp k ∧ isCl v) ∨ (isCl k ∧ isOp v))) →
      ((∀ k v, lookupPos m' k = some v →
          lookupPos m' v = some k ∧ k ≠ v ∧
          ((isOp k ∧ isCl v) ∨ (isCl k ∧ isOp v))) ∧
        (∀ k, (lookupPos m k).isSome → (lookupPos m' k).isSome) ∧
        (∀ t ∈ st, (lookupPos m' t.2).isSome ∨ t ∈ st') ∧
        (∀ e ∈ l, (e.2.2 = '[' ∨ e.2.2 = ']') →
          (lookupPos m' e.2.1).isSome ∨ ∃ t, t ∈ st' ∧ t.2 = e.2.1) ∧
        (∀ t ∈ st', isOp t.2)) := by
  intro l
  induction l with
  | nil =>
    intro st m st' m' h hty hnd hfm hfs hstyp hstnd hstm hgood
    cases h
    refine ⟨hgood, fun k hk => hk, fun t ht => Or.inr ht, ?_, hstyp⟩
    intro e he
    simp at he
  | cons e l ih =>
    intro st m st' m' h hty hnd hfm hfs hstyp hstnd hstm hgood
    obtain ⟨ln, p, c⟩ := e
    simp only [List.map_cons, List.nodup_cons, List.mem_map] at hnd
    obtain ⟨hnd1, hnd2⟩ := hnd
    have hty_head := hty (ln, p, c) (List.mem_cons_self _ _)
    have hfm_head := hfm (ln, p, c) (List.mem_cons_self _ _)
    have hfs_head := hfs (ln, p, c) (List.mem_cons_self _ _)
    by_cases hc1 : c = '['
    · -- a loop-open is pushed
      rw [scanFlat_cons_open hc1] at h
      have hop : isOp p := hty_head.1 hc1
      obtain ⟨g1, g2, g3, g4, g5⟩ := ih ((ln, p) :: st) m st' m' h
        (fun e he => hty e (List.mem_cons_of_mem _ he))
        hnd2
        (fun e he => hfm e (List.mem_cons_of_mem _ he))
        (by
          intro e he t ht
          rcases List.mem_cons.mp ht with rfl | ht
          · intro hep
            exact hnd1 ⟨e, he, hep⟩
          · exact hfs e (List.mem_cons_of_mem _ he) t ht)
        (by
          intro t ht
          rcases List.mem_cons.mp ht with rfl | ht
          · exact hop
          · exact hstyp t ht)
        (by
          simp only [List.map_cons, List.nodup_cons]
          refine ⟨?_, hstnd⟩
          intro hmem
          simp only [List.mem_map] at hmem
          obtain ⟨t, ht, hpt⟩ := hmem
          exact hfs_head t ht hpt.symm
          )
        (by
          intro t ht
          rcases List.mem_cons.mp ht with rfl | ht
          · exact hfm_head
          · exact hstm t ht)
        hgood
      refine ⟨g1, g2, ?_, ?_, g5⟩
      · intro t ht
        exact g3 t (List.mem_cons_of_mem _ ht)
      · intro e he hbr
        rcases List.mem_cons.mp he with rfl | he
        · rcases g3 (ln, p) (List.mem_cons_self _ _) with hk | hin
          · exact Or.inl hk
          · exact Or.inr ⟨(ln, p), hin, rfl⟩
        · exact g4 e he hbr
    · by_cases hc2 : c = ']'
      · -- a loop-close pops the most recent open and records the pair
        cases hst : st with
        | nil =>
          rw [hst, scanFlat_cons_close_nil hc2] at h
          cases h
        | cons t st_ =>
          rw [hst, scanFlat_cons_close_cons hc2] at h
          have hcl : isCl p := hty_head.2 hc2
          have hpt : p ≠ t.2 := hfs_head t (hst ▸ List.mem_cons_self _ _)
          have hopt : isOp t.2 := hstyp t (hst ▸ List.mem_cons_self _ _)
          have htm : lookupPos m t.2 = none :=
            hstm t (hst ▸ List.mem_cons_self _ _)
          have hlook : ∀ q, lookupPos ((p, t.2) :: (t.2, p) :: m) q =
              if p = q then some t.2
              else if t.2 = q then some p
              else lookupPos m q := by
            intro q
            rw [lookupPos_cons, lookupPos_cons]
          have hstnd' : (st_.map fun t => t.2).Nodup ∧
              t.2 ∉ st_.map fun t => t.2 := by
            rw [hst] at hstnd
            simp only [List.map_cons, List.nodup_cons] at hstnd
            exact ⟨hstnd.2, hstnd.1⟩
          obtain ⟨g1, g2, g3, g4, g5⟩ :=
            ih st_ ((p, t.2) :: (t.2, p) :: m) st' m' h
            (fun e he => hty e (List.mem_cons_of_mem _ he))
            hnd2
            (by
              intro e he
              have hA : ¬(p = e.2.1) := fun hh => hnd1 ⟨e, he, hh.symm⟩
              have hB : ¬(t.2 = e.2.1) := by
                intro hh
                exact hfs e (List.mem_cons_of_mem _ he) t
                  (hst ▸ List.mem_cons_self _ _) hh.symm
              rw [hlook, if_neg hA, if_neg hB]
              exact hfm e (List.mem_cons_of_mem _ he))
            (by
              intro e he u hu
              exact hfs e (List.mem_cons_of_mem _ he) u
                (hst ▸ List.mem_cons_of_mem _ hu))
            (fun u hu => hstyp u (hst ▸ List.mem_cons_of_mem _ hu))
            hstnd'.1
            (by
              intro u hu
              have hA : ¬(p = u.2) :=
                hfs_head u (hst ▸ List.mem_cons_of_mem _ hu)
              have hB : ¬(t.2 = u.2) := by
                intro hh
                exact hstnd'.2 (List.mem_map.mpr ⟨u, hu, hh.symm⟩)
              rw [hlook, if_neg hA, if_neg hB]
              exact hstm u (hst ▸ List.mem_cons_of_mem _ hu))
            (by
              intro k v hkv
              rw [hlook] at hkv
              by_cases hk1 : p = k
              · rw [if_pos hk1] at hkv
                cases hkv
                subst hk1
                refine ⟨?_, hpt, Or.inr ⟨hcl, hopt⟩⟩
                rw [hlook, if_neg hpt, if_pos rfl]
              · rw [if_neg hk1] at hkv
                by_cases hk2 : t.2 = k
                · rw [if_pos hk2] at hkv
                  cases hkv
                  subst hk2
                  refine ⟨?_, fun hh => hpt hh.symm, Or.inl ⟨hopt, hcl⟩⟩
                  rw [hlook, if_pos rfl]
                · rw [if_neg hk2] at hkv
                  obtain ⟨hvk, hne, hty'⟩ := hgood k v hkv
                  have hvp : v ≠ p := by
                    intro hh
                    rw [hh] at hvk
                    rw [hfm_head] at hvk
                    cases hvk
                  have hvt : v ≠ t.2 := by
                    intro hh
                    rw [hh] at hvk
                    rw [htm] at hvk
                    cases hvk
                  refine ⟨?_, hne, hty'⟩
                  rw [hlook, if_neg (fun hh => hvp hh.symm),
                    if_neg (fun hh => hvt hh.symm)]
                  exact hvk)
          have hkeyp : (lookupPos ((p, t.2) :: (t.2, p) :: m) p).isSome := by
            rw [hlook, if_pos rfl]
            rfl
          have hkeyt : (lookupPos ((p, t.2) :: (t.2, p) :: m) t.2).isSome := by
            rw [hlook, if_neg hpt, if_pos rfl]
            rfl
          refine ⟨g1, ?_, ?_, ?_, g5⟩
          · intro k hk
            apply g2
            rw [hlook]
            by_cases hk1 : p = k
            · rw [if_pos hk1]
              rfl
            · rw [if_neg hk1]
              by_cases hk2 : t.2 = k
              · rw [if_pos hk2]
                rfl
              · rw [if_neg hk2]
                exact hk
          · intro u hu
            rcases List.mem_cons.mp hu with rfl | hu
            · exact Or.inl (g2 _ hkeyt)
            · exact g3 u hu
          · intro e he hbr
            rcases List.mem_cons.mp he with rfl | he
            · exact Or.inl (g2 _ hkeyp)
            · exact g4 e he hbr
      · -- a comment character
        rw [scanFlat_cons_other hc1 hc2] at h
        obtain ⟨g1, g2, g3, g4, g5⟩ := ih st m st' m' h
          (fun e he => hty e (List.mem_cons_of_mem _ he))
          hnd2
          (fun e he => hfm e (List.mem_cons_of_mem _ he))
          (fun e he => hfs e (List.mem_cons_of_mem _ he))
          hstyp hstnd hstm hgood
        refine ⟨g1, g2, g3, ?_, g5⟩
        intro e he hbr
        rcases List.mem_cons.mp he with rfl | he
        · rcases hbr with hbr | hbr
          · exact absurd hbr hc1
          · exact absurd hbr hc2
        · exact g4 e he hbr

/-! ### Consequences of a successful jump-table build -/

theorem charAt_of_mem_flatten {script : List (Nat × List Char)}
    {e : Nat × Pos × Char} (h : e ∈ flattenScript 0 script) :
    charAt script e.2.1 = some e.2.2 := by
  obtain ⟨_, line, h2, h3⟩ := mem_flattenScript h
  simp only [Nat.sub_zero] at h2
  unfold charAt
  rw [h2]
  exact h3

theorem buildLoopsMap_ok_scan {script : List (Nat × List Char)}
    {m : List (Pos × Pos)} (h : buildLoopsMap script = .ok m) :
    scanFlat (flattenScript 0 script) [] [] = .ok ([], m) := by
  unfold buildLoopsMap at h
  cases hs : scanScript 0 script [] [] with
  | error e =>
    rw [hs] at h
    cases h
  | ok r =>
    obtain ⟨stack, m0⟩ := r
    rw [hs] at h
    dsimp only at h
    cases stack with
    | nil =>
      cases h
      rw [← scanScript_eq_flat]
      exact hs
    | cons bp strest => cases h

/-- After a successful build, the loops map is a symmetric open/close
pairing whose keys cover exactly the bracket positions of the script. -/
theorem buildLoopsMap_ok_good {script : List (Nat × List Char)}
    {m : List (Pos × Pos)} (h : buildLoopsMap script = .ok m) :
    (∀ k v, lookupPos m k = some v →
      lookupPos m v = some k ∧ k ≠ v ∧
      ((charAt script k = some '[' ∧ charAt script v = some ']') ∨
        (charAt script k = some ']' ∧ charAt script v = some '['))) ∧
    (∀ p c, charAt script p = some c → (c = '[' ∨ c = ']') →
      (lookupPos m p).isSome) := by
  have hscan := buildLoopsMap_ok_scan h
  obtain ⟨g1, g2, g3, g4, g5⟩ :=
    scanFlat_invariant (fun q => charAt script q = some '[')
      (fun q => charAt script q = some ']')
      (flattenScript 0 script) [] [] [] m hscan
      (by
        intro e he
        have hce := charAt_of_mem_flatten he
        exact ⟨fun hc => hc ▸ hce, fun hc => hc ▸ hce⟩)
      (nodup_flattenScript _ 0)
      (fun e he => rfl)
      (fun e he t ht => absurd ht (List.not_mem_nil t))
      (fun t ht => absurd ht (List.not_mem_nil t))
      (by simp)
      (fun t ht => absurd ht (List.not_mem_nil t))
      (by
        intro k v hkv
        cases hkv)
  refine ⟨g1, ?_⟩
  intro p c hc hbr
  have hp : p = (p.1, p.2) := rfl
  unfold charAt at hc
  cases hg : script.get? p.1 with
  | none =>
    rw [hg] at hc
    cases hc
  | some line =>
    rw [hg] at hc
    obtain ⟨ln, chars⟩ := line
    have hmem := @flattenScript_mem_of_get script 0 p.1 ln chars p.2 c hg hc
    simp only [Nat.zero_add] at hmem
    have hg4 := g4 (ln, (p.1, p.2), c) hmem hbr
    rcases hg4 with hk | ⟨t, ht, _⟩
    · rw [hp]
      exact hk
    · exact absurd ht (List.not_mem_nil t)

/-! ### C2: the jump table is a one-to-one bidirectional mapping -/

/-- C2: for every script whose build succeeds, every loop-open position is
a key mapped to a loop-close position, every loop-close position is a key
mapped back to a loop-open position, and the two directions round-trip:
`open ↦ close ↦ open` and `close ↦ open ↦ close`. -/
theorem claim_C2_roundtrip :
    ∀ (script : List (Nat × List Char)) (m : List (Pos × Pos)),
      buildLoopsMap script = .ok m →
      ((∀ p, charAt script p = some '[' →
          ∃ q, lookupPos m p = some q ∧ charAt script q = some ']' ∧
            lookupPos m q = some p) ∧
        (∀ q, charAt script q = some ']' →
          ∃ p, lookupPos m q = some p ∧ charAt script p = some '[' ∧
            lookupPos m p = some q)) := by
  intro script m h
  obtain ⟨hgood, hcov⟩ := buildLoopsMap_ok_good h
  constructor
  · intro p hp
    have hs := hcov p '[' hp (Or.inl rfl)
    obtain ⟨q, hq⟩ := Option.isSome_iff_exists.mp hs
    obtain ⟨hqp, hne, hty⟩ := hgood p q hq
    rcases hty with ⟨h1, h2⟩ | ⟨h1, h2⟩
    · exact ⟨q, hq, h2, hqp⟩
    · rw [hp] at h1
      simp at h1
  · intro q hq
    have hs := hcov q ']' hq (Or.inr rfl)
    obtain ⟨p, hp⟩ := Option.isSome_iff_exists.mp hs
    obtain ⟨hpq, hne, hty⟩ := hgood q p hp
    rcases hty with ⟨h1, h2⟩ | ⟨h1, h2⟩
    · rw [hq] at h1
      simp at h1
    · exact ⟨p, hp, h2, hpq⟩

/-- Witness for C2 on the script of `[-]`. -/
theorem claim_C2_roundtrip_witness :
    (buildLoopsMap (mkScript (splitlines "[-]".toList)) =
      .ok [((0, 2), (0, 0)), ((0, 0), (0, 2))]) ∧
    ((∀ p, charAt (mkScript (splitlines "[-]".toList)) p = some '[' →
        ∃ q, lookupPos [((0, 2), (0, 0)), ((0, 0), (0, 2))] p = some q ∧
          charAt (mkScript (splitlines "[-]".toList)) q = some ']' ∧
          lookupPos [((0, 2), (0, 0)), ((0, 0), (0, 2))] q = some p) ∧
      (∀ q, charAt (mkScript (splitlines "[-]".toList)) q = some ']' →
        ∃ p, lookupPos [((0, 2), (0, 0)), ((0, 0), (0, 2))] q = some p ∧
          charAt (mkScript (splitlines "[-]".toList)) p = some '[' ∧
          lookupPos [((0, 2), (0, 0)), ((0, 0), (0, 2))] p = some q)) :=
  ⟨rfl, claim_C2_roundtrip (mkScript (splitlines "[-]".toList))
    [((0, 2), (0, 0)), ((0, 0), (0, 2))] rfl⟩

/-! ### Counting opens and closes -/

theorem countOpens_cons_open {ln : Nat} {p : Pos} {c : Char}
    (l : List (Nat × Pos × Char)) (hc : c = '[') :
    countOpens ((ln, p, c) :: l) = 1 + countOpens l := by
  subst hc
  rfl

theorem countOpens_cons_ne {ln : Nat} {p : Pos} {c : Char}
    (l : List (Nat × Pos × Char)) (hc : c ≠ '[') :
    countOpens ((ln, p, c) :: l) = countOpens l := by
  simp only [countOpens, hc, if_false, Nat.zero_add]

theorem countCloses_cons_close {ln : Nat} {p : Pos} {c : Char}
    (l : List (Nat × Pos × Char)) (hc : c = ']') :
    countCloses ((ln, p, c) :: l) = 1 + countCloses l := by
  subst hc
  rfl

theorem countCloses_cons_ne {ln : Nat} {p : Pos} {c : Char}
    (l : List (Nat × Pos × Char)) (hc : c ≠ ']') :
    countCloses ((ln, p, c) :: l) = countCloses l := by
  simp only [countCloses, hc, if_false, Nat.zero_add]

/-! ### The scan fails at the first offending close -/

/-- If the entries before a loop-close exactly refill the running stack
(`closes = opens + |stack|`) while every earlier close still found a
non-empty stack, the scan stops exactly at that close, reporting its
1-based raw line and column. -/
theorem scanFlat_first_offending_close :
    ∀ (l1 : List (Nat × Pos × Char)) (ln : Nat) (p : Pos)
      (l2 : List (Nat × Pos × Char)) (st : List (Nat × Pos))
      (m : List (Pos × Pos)),
      countCloses l1 = countOpens l1 + st.length →
      (∀ i, i < l1.length → ∀ x, l1.get? i = some x → x.2.2 = ']' →
        countCloses (l1.take i) < countOpens (l1.take i) + st.length) →
      scanFlat (l1 ++ (ln, p, ']') :: l2) st m =
        .error (.unexpectedClose (ln + 1) (p.2 + 1)) := by
  intro l1
  induction l1 with
  | nil =>
    intro ln p l2 st m hbal hmin
    have hst : st = [] := by
      have h0 : countCloses ([] : List (Nat × Pos × Char)) = 0 := rfl
      have h1 : countOpens ([] : List (Nat × Pos × Char)) = 0 := rfl
      rw [h0, h1] at hbal
      exact List.length_eq_zero.mp (by omega)
    subst hst
    rw [List.nil_append]
    exact scanFlat_cons_close_nil rfl
  | cons e l1 ih =>
    intro ln p l2 st m hbal hmin
    obtain ⟨ln0, p0, c0⟩ := e
    by_cases hc1 : c0 = '['
    · rw [List.cons_append, scanFlat_cons_open hc1]
      apply ih
      · rw [countOpens_cons_open _ hc1,
          countCloses_cons_ne _ (by rw [hc1]; decide)] at hbal
        simp only [List.length_cons]
        omega
      · intro i hi x hx hxc
        have hm := hmin (i + 1) (by simpa using hi) x (by simpa using hx) hxc
        rw [List.take_succ_cons, countOpens_cons_open _ hc1,
          countCloses_cons_ne _ (by rw [hc1]; decide)] at hm
        simp only [List.length_cons]
        omega
    · by_cases hc2 : c0 = ']'
      · have h0 := hmin 0 (by simp) (ln0, p0, c0) (by simp) hc2
        have hstpos : 0 < st.length := by
          have hc' : countCloses (List.take 0 ((ln0, p0, c0) :: l1)) = 0 := rfl
          have ho' : countOpens (List.take 0 ((ln0, p0, c0) :: l1)) = 0 := rfl
          rw [hc', ho'] at h0
          omega
        cases hst : st with
        | nil =>
          rw [hst] at hstpos
          simp at hstpos
        | cons t st_ =>
          rw [List.cons_append, scanFlat_cons_close_cons hc2]
          apply ih
          · rw [countCloses_cons_close _ hc2,
              countOpens_cons_ne _ (by rw [hc2]; decide)] at hbal
            rw [hst] at hbal
            simp only [List.length_cons] at hbal
            omega
          · intro i hi x hx hxc
            have hm := hmin (i + 1) (by simpa using hi) x (by simpa using hx)
              hxc
            rw [List.take_succ_cons, countCloses_cons_close _ hc2,
              countOpens_cons_ne _ (by rw [hc2]; decide)] at hm
            rw [hst] at hm
            simp only [List.length_cons] at hm
            omega
      · rw [List.cons_append, scanFlat_cons_other hc1 hc2]
        apply ih
        · rw [countOpens_cons_ne _ hc1, countCloses_cons_ne _ hc2] at hbal
          exact hbal
        · intro i hi x hx hxc
          have hm := hmin (i + 1) (by simpa using hi) x (by simpa using hx)
            hxc
          rw [List.take_succ_cons, countOpens_cons_ne _ hc1,
            countCloses_cons_ne _ hc2] at hm
          exact hm

/-! ### The head of the final stack is the most recent unmatched open -/

/-- If the scan of `l` succeeds and the final stack is non-empty, its top
entry either is an entry `'['` of `l` followed by a balanced suffix (it was
pushed by `l` and never popped, and everything after it cancels out), or it
came from the initial stack at depth `j`, in which case `l` performed `j`
net pops and never dipped deeper. -/
theorem scanFlat_ok_head :
    ∀ (l : List (Nat × Pos × Char)) (st : List (Nat × Pos))
      (m : List (Pos × Pos)) (e : Nat × Pos) (st'' : List (Nat × Pos))
      (m' : List (Pos × Pos)),
      scanFlat l st m = .ok (e :: st'', m') →
      (∃ a b, l = a ++ (e.1, e.2, '[') :: b ∧ balancedF b) ∨
      (∃ j, st.get? j = some e ∧ countCloses l = countOpens l + j ∧
        ∀ n, countCloses (l.take n) ≤ countOpens (l.take n) + j) := by
  intro l
  induction l with
  | nil =>
    intro st m e st'' m' h
    cases h
    refine Or.inr ⟨0, rfl, rfl, ?_⟩
    intro n
    simp [countOpens, countCloses]
  | cons hd l ih =>
    intro st m e st'' m' h
    obtain ⟨ln0, p0, c0⟩ := hd
    by_cases hc1 : c0 = '['
    · rw [scanFlat_cons_open hc1] at h
      rcases ih ((ln0, p0) :: st) m e st'' m' h with
        ⟨a, b, heq, hbal⟩ | ⟨j, hj, hcnt, hpre⟩
      · exact Or.inl ⟨(ln0, p0, c0) :: a, b, by rw [List.cons_append, ← heq],
          hbal⟩
      · cases j with
        | zero =>
          simp only [List.get?_cons_zero, Option.some_inj] at hj
          refine Or.inl ⟨[], l, ?_, ?_⟩
          · rw [List.nil_append, ← hj, hc1]
          · exact ⟨by omega, fun n => by have := hpre n; omega⟩
        | succ j' =>
          refine Or.inr ⟨j', by simpa using hj, ?_, ?_⟩
          · rw [countCloses_cons_ne _ (by rw [hc1]; decide),
              countOpens_cons_open _ hc1]
            omega
          · intro n
            cases n with
            | zero => simp [countOpens, countCloses]
            | succ n' =>
              rw [List.take_succ_cons,
                countCloses_cons_ne _ (by rw [hc1]; decide),
                countOpens_cons_open _ hc1]
              have := hpre n'
              omega
    · by_cases hc2 : c0 = ']'
      · cases hst : st with
        | nil =>
          rw [hst, scanFlat_cons_close_nil hc2] at h
          cases h
        | cons t st_ =>
          rw [hst, scanFlat_cons_close_cons hc2] at h
          rcases ih st_ ((p0, t.2) :: (t.2, p0) :: m) e st'' m' h with
            ⟨a, b, heq, hbal⟩ | ⟨j, hj, hcnt, hpre⟩
          · exact Or.inl ⟨(ln0, p0, c0) :: a, b,
              by rw [List.cons_append, ← heq], hbal⟩
          · refine Or.inr ⟨j + 1, by simpa using hj, ?_, ?_⟩
            · rw [countCloses_cons_close _ hc2,
                countOpens_cons_ne _ (by rw [hc2]; decide)]
              omega
            · intro n
              cases n with
              | zero => simp [countOpens, countCloses]
              | succ n' =>
                rw [List.take_succ_cons, countCloses_cons_close _ hc2,
                  countOpens_cons_ne _ (by rw [hc2]; decide)]
                have := hpre n'
                omega
      · rw [scanFlat_cons_other hc1 hc2] at h
        rcases ih st m e st'' m' h with
          ⟨a, b, heq, hbal⟩ | ⟨j, hj, hcnt, hpre⟩
        · exact Or.inl ⟨(ln0, p0, c0) :: a, b,
            by rw [List.cons_append, ← heq], hbal⟩
        · refine Or.inr ⟨j, hj, ?_, ?_⟩
          · rw [countCloses_cons_ne _ hc2, countOpens_cons_ne _ hc1]
            exact hcnt
          · intro n
            cases n with
            | zero => simp [countOpens, countCloses]
            | succ n' =>
              rw [List.take_succ_cons, countCloses_cons_ne _ hc2,
                countOpens_cons_ne _ hc1]
              exact hpre n'

/-- Errors produced by the scan itself are always unexpected-close errors,
located at an actual `']'` entry of the scanned sequence. -/
theorem scanFlat_error_mem :
    ∀ (l : List (Nat × Pos × Char)) (st : List (Nat × Pos))
      (m : List (Pos × Pos)) (err : BFError),
      scanFlat l st m = .error err →
      ∃ ln p, (ln, p, ']') ∈ l ∧ err = .unexpectedClose (ln + 1) (p.2 + 1) := by
  intro l
  induction l with
  | nil =>
    intro st m err h
    cases h
  | cons hd l ih =>
    intro st m err h
    obtain ⟨ln0, p0, c0⟩ := hd
    by_cases hc1 : c0 = '['
    · rw [scanFlat_cons_open hc1] at h
      obtain ⟨ln, p, hmem, herr⟩ := ih _ _ _ h
      exact ⟨ln, p, List.mem_cons_of_mem _ hmem, herr⟩
    · by_cases hc2 : c0 = ']'
      · cases hst : st with
        | nil =>
          rw [hst, scanFlat_cons_close_nil hc2] at h
          cases h
          exact ⟨ln0, p0, by rw [← hc2]; exact List.mem_cons_self _ _, rfl⟩
        | cons t st_ =>
          rw [hst, scanFlat_cons_close_cons hc2] at h
          obtain ⟨ln, p, hmem, herr⟩ := ih _ _ _ h
          exact ⟨ln, p, List.mem_cons_of_mem _ hmem, herr⟩
      · rw [scanFlat_cons_other hc1 hc2] at h
        obtain ⟨ln, p, hmem, herr⟩ := ih _ _ _ h
        exact ⟨ln, p, List.mem_cons_of_mem _ hmem, herr⟩

/-! ### Relating build errors to the raw source -/

theorem flatten_entry_raw {raw : List (List Char)} {ln : Nat} {p : Pos}
    {c : Char} (h : (ln, p, c) ∈ flattenScript 0 (mkScript raw)) :
    ∃ line, raw.get? ln = some line ∧ line.get? p.2 = some c := by
  obtain ⟨_, line, h2, h3⟩ := mem_flattenScript h
  simp only [Nat.sub_zero] at h2
  have hseq := List.get?_mem h2
  have henum := (List.mem_filter.mp hseq).1
  exact ⟨line, List.mem_enum_iff_get?.mp henum, h3⟩

theorem buildLoopsMap_unexpectedClose_entry {script : List (Nat × List Char)}
    {a b : Nat}
    (h : buildLoopsMap script = .error (.unexpectedClose a b)) :
    ∃ ln p, (ln, p, ']') ∈ flattenScript 0 script ∧
      a = ln + 1 ∧ b = p.2 + 1 := by
  unfold buildLoopsMap at h
  cases hs : scanScript 0 script [] [] with
  | error e =>
    rw [hs] at h
    cases h
    rw [scanScript_eq_flat] at hs
    obtain ⟨ln, p, hmem, herr⟩ := scanFlat_error_mem _ _ _ _ hs
    cases herr
    exact ⟨ln, p, hmem, rfl, rfl⟩
  | ok r =>
    obtain ⟨stack, m0⟩ := r
    rw [hs] at h
    dsimp only at h
    cases stack with
    | nil => cases h
    | cons bp strest => cases h

theorem buildLoopsMap_unclosed_head {raw : List (List Char)} {a b : Nat}
    (h : buildLoopsMap (mkScript raw) = .error (.unclosed a b)) :
    ∃ (ln : Nat) (p : Pos) (pre post : List (Nat × Pos × Char)),
      flattenScript 0 (mkScript raw) = pre ++ (ln, p, '[') :: post ∧
      balancedF post ∧ a = ln + 1 ∧ b = p.2 + 1 ∧
      (∃ line, raw.get? ln = some line ∧ line.get? p.2 = some '[') := by
  unfold buildLoopsMap at h
  cases hs : scanScript 0 (mkScript raw) [] [] with
  | error e =>
    rw [hs] at h
    cases h
    rw [scanScript_eq_flat] at hs
    obtain ⟨ln, p, hmem, herr⟩ := scanFlat_error_mem _ _ _ _ hs
    cases herr
  | ok r =>
    obtain ⟨stack, m0⟩ := r
    rw [hs] at h
    dsimp only at h
    cases stack with
    | nil => cases h
    | cons bp strest =>
      have hab : a = bp.1 + 1 ∧ b = bp.2.2 + 1 := by
        cases h
        exact ⟨rfl, rfl⟩
      rw [scanScript_eq_flat] at hs
      rcases scanFlat_ok_head _ [] [] bp strest m0 hs with
        ⟨pre, post, heq, hbal⟩ | ⟨j, hj, _, _⟩
      · have hmem : (bp.1, bp.2, '[') ∈ flattenScript 0 (mkScript raw) := by
          rw [heq]
          exact List.mem_append_right _ (List.mem_cons_self _ _)
        exact ⟨bp.1, bp.2, pre, post, heq, hbal, hab.1, hab.2,
          flatten_entry_raw hmem⟩
      · simp at hj

/-! ### C8: unexpected close reported at the first offending close -/

/-- C8: for every source whose flattened filtered script contains a
loop-close with no preceding unmatched loop-open — i.e. the first offending
close in line-then-column scan order: the entries before it hold equally
many opens and closes, while every earlier close still had an excess of
opens — the build fails with an unexpected-close SyntaxError carrying
exactly that delimiter's own 1-based line and column (its line in the raw
source, whose content at that column is indeed `']'`). -/
theorem claim_C8_unexpected_close :
    ∀ (raw : List (List Char)) (pre : List (Nat × Pos × Char)) (ln : Nat)
      (p : Pos) (post : List (Nat × Pos × Char)),
      flattenScript 0 (mkScript raw) = pre ++ (ln, p, ']') :: post →
      countCloses pre = countOpens pre →
      (∀ i, i < pre.length → ∀ x, pre.get? i = some x → x.2.2 = ']' →
        countCloses (pre.take i) < countOpens (pre.take i)) →
      (buildLoopsMap (mkScript raw) =
          .error (.unexpectedClose (ln + 1) (p.2 + 1)) ∧
        ∃ line, raw.get? ln = some line ∧ line.get? p.2 = some ']') := by
  intro raw pre ln p post hflat hbal hmin
  constructor
  · unfold buildLoopsMap
    rw [scanScript_eq_flat, hflat,
      scanFlat_first_offending_close pre ln p post [] [] (by simpa using hbal)
        (by simpa using hmin)]
  · have hmem : (ln, p, ']') ∈ flattenScript 0 (mkScript raw) := by
      rw [hflat]
      exact List.mem_append_right _ (List.mem_cons_self _ _)
    exact flatten_entry_raw hmem

/-- Witness for C8 on the one-character source `"]"`. -/
theorem claim_C8_unexpected_close_witness :
    (flattenScript 0 (mkScript (splitlines "]".toList)) =
        [] ++ (0, ((0, 0) : Pos), ']') :: [] ∧
      countCloses [] = countOpens [] ∧ (0 : Nat) < 1) ∧
    (buildLoopsMap (mkScript (splitlines "]".toList)) =
        .error (.unexpectedClose (0 + 1) (((0, 0) : Pos).2 + 1)) ∧
      ∃ line, (splitlines "]".toList).get? 0 = some line ∧
        line.get? ((0, 0) : Pos).2 = some ']') :=
  ⟨⟨rfl, rfl, by decide⟩,
    claim_C8_unexpected_close (splitlines "]".toList) [] 0 (0, 0) [] rfl rfl
      (by
        intro i hi
        simp at hi)⟩

/-! ### C1 (amended): unclosed-bracket reports the newest unmatched open -/

/-- C1 (amended): when the build fails with an unclosed-bracket error, the
reported 1-based line/column are those of the MOST RECENTLY opened still
unmatched loop-open — the top of the stack, not the bottom: the reported
entry is a `'['` of the flattened script whose entire following entry
sequence is balanced (so its own close never comes, while every open after
it is matched inside that balanced suffix), and the reported line number is
its raw line, whose content at the reported column is indeed `'['`. -/
theorem claim_C1_unclosed_newest :
    ∀ (raw : List (List Char)) (a b : Nat),
      buildLoopsMap (mkScript raw) = .error (.unclosed a b) →
      ∃ (ln : Nat) (p : Pos) (pre post : List (Nat × Pos × Char)),
        flattenScript 0 (mkScript raw) = pre ++ (ln, p, '[') :: post ∧
        balancedF post ∧ a = ln + 1 ∧ b = p.2 + 1 ∧
        (∃ line, raw.get? ln = some line ∧ line.get? p.2 = some '[') :=
  fun raw a b h => buildLoopsMap_unclosed_head h

/-- Witness for C1 (amended) on `"[["`: the reported position `(1, 2)` is
the second, most recently opened bracket. -/
theorem claim_C1_unclosed_newest_witness :
    (buildLoopsMap (mkScript (splitlines "[[".toList)) =
      .error (.unclosed 1 2)) ∧
    (∃ (ln : Nat) (p : Pos) (pre post : List (Nat × Pos × Char)),
      flattenScript 0 (mkScript (splitlines "[[".toList)) =
        pre ++ (ln, p, '[') :: post ∧
      balancedF post ∧ 1 = ln + 1 ∧ 2 = p.2 + 1 ∧
      (∃ line, (splitlines "[[".toList).get? ln = some line ∧
        line.get? p.2 = some '[')) :=
  ⟨rfl, claim_C1_unclosed_newest (splitlines "[[".toList) 1 2 rfl⟩

/-! ### C3 (amended): filtered positions, raw error line numbers -/

/-- C3 (amended): blank lines are dropped before indexing — the filtered
script holds exactly the non-blank raw lines, each stored with its original
raw index — and jump-table positions refer to the filtered sequence (every
key addresses a bracket character through the filtered line index).  The
line numbers carried in SyntaxError messages, however, are 1-based RAW line
numbers of the unfiltered source, not filtered indices: the reported
`(line, column)` pair always addresses the offending bracket inside the raw
line list. -/
theorem claim_C3_filtered_positions_raw_errors :
    ∀ (raw : List (List Char)),
      (∀ e ∈ mkScript raw, raw.get? e.1 = some e.2 ∧ lineBlank e.2 = false) ∧
      (∀ i ln, raw.get? i = some ln → lineBlank ln = false →
        (i, ln) ∈ mkScript raw) ∧
      (∀ m, buildLoopsMap (mkScript raw) = .ok m →
        ∀ k v, lookupPos m k = some v →
          ∃ c, charAt (mkScript raw) k = some c ∧ (c = '[' ∨ c = ']')) ∧
      (∀ a b, buildLoopsMap (mkScript raw) = .error (.unexpectedClose a b) →
        ∃ line, raw.get? (a - 1) = some line ∧ line.get? (b - 1) = some ']') ∧
      (∀ a b, buildLoopsMap (mkScript raw) = .error (.unclosed a b) →
        ∃ line, raw.get? (a - 1) = some line ∧
          line.get? (b - 1) = some '[') := by
  intro raw
  refine ⟨?_, ?_, ?_, ?_, ?_⟩
  · intro e he
    obtain ⟨henum, hpred⟩ := List.mem_filter.mp he
    refine ⟨List.mem_enum_iff_get?.mp henum, ?_⟩
    simpa using hpred
  · intro i ln hg hb
    exact List.mem_filter.mpr ⟨List.mem_enum_iff_get?.mpr hg, by simp [hb]⟩
  · intro m hm k v hkv
    obtain ⟨hgood, _⟩ := buildLoopsMap_ok_good hm
    obtain ⟨_, _, hty⟩ := hgood k v hkv
    rcases hty with ⟨h1, _⟩ | ⟨h1, _⟩
    · exact ⟨'[', h1, Or.inl rfl⟩
    · exact ⟨']', h1, Or.inr rfl⟩
  · intro a b h
    obtain ⟨ln, p, hmem, ha, hb⟩ := buildLoopsMap_unexpectedClose_entry h
    obtain ⟨line, hline, hcol⟩ := flatten_entry_raw hmem
    subst ha
    subst hb
    simp only [Nat.add_sub_cancel]
    exact ⟨line, hline, hcol⟩
  · intro a b h
    obtain ⟨ln, p, pre, post, _, _, ha, hb, line, hline, hcol⟩ :=
      buildLoopsMap_unclosed_head h
    subst ha
    subst hb
    simp only [Nat.add_sub_cancel]
    exact ⟨line, hline, hcol⟩

/-- Witness for C3 (amended) on the source `"\n]"` whose first line is
blank. -/
theorem claim_C3_filtered_positions_raw_errors_witness :
    ((1, [']']) ∈ mkScript (splitlines "\n]".toList) ∧
      buildLoopsMap (mkScript (splitlines "\n]".toList)) =
        .error (.unexpectedClose 2 1)) ∧
    (∃ line, (splitlines "\n]".toList).get? (2 - 1) = some line ∧
      line.get? (1 - 1) = some ']') :=
  ⟨⟨by decide, rfl⟩,
    (claim_C3_filtered_positions_raw_errors
      (splitlines "\n]".toList)).2.2.2.1 2 1 rfl⟩

/-! ### C9 (amended): no tape-bounds or jump-table faults at run time -/

theorem get?_of_drop_cons {α : Type} {l : List α} {n : Nat} {c : α}
    {r : List α} (h : l.drop n = c :: r) : l.get? n = some c := by
  have h2 : (l.drop n).get? 0 = some c := by
    rw [h]
    rfl
  rwa [List.get?_drop, Nat.add_zero] at h2

theorem drop_cons_succ {α : Type} {l : List α} {n : Nat} {c : α}
    {r : List α} (h : l.drop n = c :: r) : l.drop (n + 1) = r := by
  have h2 : List.drop 1 (l.drop n) = r := by
    rw [h]
    rfl
  rwa [List.drop_drop] at h2

theorem memRead_ok_of_valid {s : EvalState} (hs : Valid s) :
    ∃ v, memRead s = .ok v := by
  obtain ⟨h1, h2⟩ := hs
  cases hg : s.mem.get? s.pointer with
  | none =>
    rw [List.get?_eq_none] at hg
    omega
  | some v =>
    refine ⟨v, ?_⟩
    rw [memRead, hg]

theorem memWrite_ok_of_valid {s : EvalState} (hs : Valid s) (v : Nat) :
    ∃ s', memWrite s v = .ok s' := by
  obtain ⟨h1, h2⟩ := hs
  unfold memWrite
  rw [if_pos (by omega)]
  exact ⟨_, rfl⟩

theorem increase_ok_of_valid {M : Nat} {s : EvalState} (hs : Valid s) :
    ∃ s', increase M s = .ok s' := by
  obtain ⟨v, hv⟩ := memRead_ok_of_valid hs
  obtain ⟨s', hw⟩ := memWrite_ok_of_valid hs (if v + 1 ≤ M then v + 1 else 0)
  refine ⟨s', ?_⟩
  rw [increase, hv]
  exact hw

theorem decrease_ok_of_valid {M : Nat} {s : EvalState} (hs : Valid s) :
    ∃ s', decrease M s = .ok s' := by
  obtain ⟨v, hv⟩ := memRead_ok_of_valid hs
  obtain ⟨s', hw⟩ := memWrite_ok_of_valid hs (if 1 ≤ v then v - 1 else M)
  refine ⟨s', ?_⟩
  rw [decrease, hv]
  exact hw

theorem printCell_error_shape {s : EvalState} {f : RunFault} (hs : Valid s)
    (h : printCell s = .error f) : ∃ v, f = .chrRange v := by
  obtain ⟨v, hv⟩ := memRead_ok_of_valid hs
  rw [printCell, hv] at h
  dsimp only at h
  by_cases hc : v < chrLimit
  · rw [if_pos hc] at h
    cases h
  · rw [if_neg hc] at h
    cases h
    exact ⟨v, rfl⟩

theorem readCell_error_shape {M : Nat} {s : EvalState} {f : RunFault}
    (hs : Valid s) (h : readCell M s = .error f) : f = .inputExhausted := by
  unfold readCell at h
  cases hin : s.input with
  | nil =>
    rw [hin] at h
    cases h
    rfl
  | cons c rest =>
    rw [hin] at h
    dsimp only at h
    have hv : Valid
        { s with
            input := rest,
            output := s.output ++ promptCodes } := hs
    obtain ⟨s', hw⟩ := memWrite_ok_of_valid hv (c % M)
    rw [hw] at h
    cases h

theorem loopStart_ok_of_lookup {lm : List (Pos × Pos)} {s : EvalState}
    (hs : Valid s) (hcov : (lookupPos lm s.position).isSome) :
    ∃ r, loopStart lm s = .ok r := by
  obtain ⟨v, hv⟩ := memRead_ok_of_valid hs
  rw [loopStart, hv]
  dsimp only
  by_cases hz : v ≠ 0
  · rw [if_pos hz]
    exact ⟨_, rfl⟩
  · rw [if_neg hz]
    obtain ⟨q, hq⟩ := Option.isSome_iff_exists.mp hcov
    rw [hq]
    exact ⟨_, rfl⟩

theorem loopEnd_ok_of_lookup {lm : List (Pos × Pos)} {s : EvalState}
    (hs : Valid s) (hcov : (lookupPos lm s.position).isSome) :
    ∃ r, loopEnd lm s = .ok r := by
  obtain ⟨v, hv⟩ := memRead_ok_of_valid hs
  rw [loopEnd, hv]
  dsimp only
  by_cases hz : v = 0
  · rw [if_pos hz]
    exact ⟨_, rfl⟩
  · rw [if_neg hz]
    obtain ⟨q, hq⟩ := Option.isSome_iff_exists.mp hcov
    rw [hq]
    exact ⟨_, rfl⟩

theorem dispatch_error_shape {M : Nat} {lm : List (Pos × Pos)} {c : Char}
    {s : EvalState} {f : RunFault} (hs : Valid s)
    (hcov : (c = '[' ∨ c = ']') → (lookupPos lm s.position).isSome)
    (hd : dispatch M lm c s = .error f) :
    (∃ v, f = .chrRange v) ∨ f = .inputExhausted := by
  unfold dispatch at hd
  by_cases h1 : c = '>'
  · rw [if_pos h1] at hd
    cases hd
  rw [if_neg h1] at hd
  by_cases h2 : c = '<'
  · rw [if_pos h2] at hd
    cases hd
  rw [if_neg h2] at hd
  by_cases h3 : c = '+'
  · rw [if_pos h3] at hd
    obtain ⟨s', hw⟩ := increase_ok_of_valid hs
    rw [hw] at hd
    dsimp only [Except.map] at hd
    cases hd
  rw [if_neg h3] at hd
  by_cases h4 : c = '-'
  · rw [if_pos h4] at hd
    obtain ⟨s', hw⟩ := decrease_ok_of_valid hs
    rw [hw] at hd
    dsimp only [Except.map] at hd
    cases hd
  rw [if_neg h4] at hd
  by_cases h5 : c = '.'
  · rw [if_pos h5] at hd
    cases hp : printCell s with
    | error g =>
      rw [hp] at hd
      dsimp only [Except.map] at hd
      cases hd
      exact Or.inl (printCell_error_shape hs hp)
    | ok t =>
      rw [hp] at hd
      dsimp only [Except.map] at hd
      cases hd
  rw [if_neg h5] at hd
  by_cases h6 : c = ','
  · rw [if_pos h6] at hd
    cases hp : readCell M s with
    | error g =>
      rw [hp] at hd
      dsimp only [Except.map] at hd
      cases hd
      exact Or.inr (readCell_error_shape hs hp)
    | ok t =>
      rw [hp] at hd
      dsimp only [Except.map] at hd
      cases hd
  rw [if_neg h6] at hd
  by_cases h7 : c = '['
  · rw [if_pos h7] at hd
    obtain ⟨r, hr⟩ := loopStart_ok_of_lookup hs (hcov (Or.inl h7))
    rw [hr] at hd
    cases hd
  rw [if_neg h7] at hd
  by_cases h8 : c = ']'
  · rw [if_pos h8] at hd
    obtain ⟨r, hr⟩ := loopEnd_ok_of_lookup hs (hcov (Or.inr h8))
    rw [hr] at hd
    cases hd
  rw [if_neg h8] at hd
  cases hd

theorem innerLoop_error_shape {M : Nat} {lm : List (Pos × Pos)}
    {script : List (Nat × List Char)}
    (Cov : ∀ p c, charAt script p = some c → (c = '[' ∨ c = ']') →
      (lookupPos lm p).isSome)
    {li : Nat} {lineNo : Nat} {line : List Char}
    (hline : script.get? li = some (lineNo, line)) :
    ∀ {chars : List Char} {col : Nat} {pc : Option Bool} {s : EvalState}
      {f : RunFault},
      Valid s → s.position = (li, col) → line.drop col = chars →
      innerLoop M lm li chars col pc s = .error f →
      (∃ v, f = .chrRange v) ∨ f = .inputExhausted := by
  intro chars
  induction chars with
  | nil =>
    intro col pc s f hs hpos hdrop h
    cases h
  | cons c rest ih =>
    intro col pc s f hs hpos hdrop h
    have hcv : charAt script (li, col) = some c := by
      unfold charAt
      rw [hline]
      exact get?_of_drop_cons hdrop
    have hcov : (c = '[' ∨ c = ']') → (lookupPos lm s.position).isSome := by
      intro hbr
      rw [hpos]
      exact Cov (li, col) c hcv hbr
    by_cases hc : isInstr c
    · cases hd : dispatch M lm c s with
      | error g =>
        rw [innerLoop_cons_fault hc hd] at h
        cases h
        exact dispatch_error_shape hs hcov hd
      | ok r =>
        obtain ⟨pc₁, s₁⟩ := r
        by_cases ht : pc₁ = some true
        · subst ht
          rw [innerLoop_cons_jump hc hd] at h
          cases h
        · rw [innerLoop_cons_step hc hd ht] at h
          refine ih ?_ ?_ ?_ h
          · exact (dispatch_ok_valid hs hd).1
          · rfl
          · exact drop_cons_succ hdrop
    · rw [innerLoop_cons_skip (by simpa using hc)] at h
      refine ih ?_ ?_ ?_ h
      · exact hs
      · rfl
      · exact drop_cons_succ hdrop

theorem outerLoop_no_bad_fault {M : Nat} {lm : List (Pos × Pos)}
    {script : List (Nat × List Char)}
    (Cov : ∀ p c, charAt script p = some c → (c = '[' ∨ c = ']') →
      (lookupPos lm p).isSome) :
    ∀ {fuel : Nat} {s : EvalState} {f : RunFault},
      Valid s → outerLoop M lm script fuel s = .fault f →
      (∃ v, f = .chrRange v) ∨ f = .inputExhausted := by
  intro fuel
  induction fuel with
  | zero =>
    intro s f hs h
    cases h
  | succ n ih =>
    intro s f hs h
    rw [outerLoop] at h
    cases hg : script.get? s.position.1 with
    | none =>
      rw [hg] at h
      cases h
    | some line =>
      rw [hg] at h
      dsimp only at h
      cases hi : innerLoop M lm s.position.1 (line.2.drop s.position.2)
          s.position.2 (some false) s with
      | error g =>
        rw [hi] at h
        cases h
        obtain ⟨lineNo, chars⟩ := line
        exact innerLoop_error_shape Cov hg hs rfl rfl hi
      | ok r =>
        obtain ⟨pc, s₁⟩ := r
        rw [hi] at h
        dsimp only at h
        have hv₁ := (innerLoop_ok_valid hs hi).1
        by_cases hpc : pc = some false
        · rw [if_pos hpc] at h
          refine ih ?_ h
          exact hv₁
        · rw [if_neg hpc] at h
          exact ih hv₁ h

theorem evalCode_eq (M : Nat) (prior : EvalState) (code : List Char)
    (input : List Nat) (fuel : Nat) :
    evalCode M prior code input fuel =
      match buildLoopsMap (mkScript (splitlines code)) with
      | .error e => .error e
      | .ok lm =>
        .ok (outerLoop M lm (mkScript (splitlines code)) fuel
          (initState input)) := rfl

/-- C9 (amended): construction rejects exactly the cell widths below `1`
with the configuration error (and otherwise records `2 ^ width - 1`), and
this is the only validated precondition; during execution the dispatch
loop can never surface a tape-bounds fault or a jump-table-lookup fault,
for any program, width, input and fuel — the pointer/tape invariant and the
totality of the jump table over bracket positions make them impossible.
(An output step can still fail when the cell value exceeds `0x10FFFF`, and
an input step can fail at end of input: see the counterexample.) -/
theorem claim_C9_no_internal_faults :
    (∀ cs : Int, (cs < 1 → mkMaxCellValue cs = .error .cellSize) ∧
      (1 ≤ cs → mkMaxCellValue cs = .ok (2 ^ cs.toNat - 1))) ∧
    (∀ (M : Nat) (prior : EvalState) (code : List Char) (input : List Nat)
      (fuel : Nat),
      evalCode M prior code input fuel ≠ .ok (.fault .tapeOutOfRange) ∧
      evalCode M prior code input fuel ≠ .ok (.fault .loopsMapKeyMissing)) := by
  constructor
  · intro cs
    constructor
    · intro hlt
      rw [mkMaxCellValue, if_pos hlt]
    · intro hge
      rw [mkMaxCellValue, if_neg (by omega)]
  · intro M prior code input fuel
    have he := evalCode_eq M prior code input fuel
    cases hb : buildLoopsMap (mkScript (splitlines code)) with
    | error e =>
      rw [hb] at he
      dsimp only at he
      constructor <;> intro h <;> rw [he] at h <;> cases h
    | ok lm =>
      rw [hb] at he
      dsimp only at he
      have hcov := (buildLoopsMap_ok_good hb).2
      have hs0 : Valid (initState input) := ⟨Nat.zero_lt_one, rfl⟩
      constructor <;> intro h
      · rw [he] at h
        have hrun : outerLoop M lm (mkScript (splitlines code)) fuel
            (initState input) = .fault .tapeOutOfRange := Except.ok.inj h
        rcases outerLoop_no_bad_fault hcov hs0 hrun with ⟨v, hv⟩ | hv <;>
          cases hv
      · rw [he] at h
        have hrun : outerLoop M lm (mkScript (splitlines code)) fuel
            (initState input) = .fault .loopsMapKeyMissing := Except.ok.inj h
        rcases outerLoop_no_bad_fault hcov hs0 hrun with ⟨v, hv⟩ | hv <;>
          cases hv

/-- Witness for C9 (amended): the configuration error at width `0`, the
successful construction at width `8`, and a concrete run of `+[-]`. -/
theorem claim_C9_no_internal_faults_witness :
    (((0 : Int) < 1 ∧ mkMaxCellValue 0 = .error .cellSize) ∧
      ((1 : Int) ≤ 8 ∧ mkMaxCellValue 8 = .ok (2 ^ (8 : Int).toNat - 1))) ∧
    (evalCode 255 (initState []) "+[-]".toList [] 10 ≠
        .ok (.fault .tapeOutOfRange) ∧
      evalCode 255 (initState []) "+[-]".toList [] 10 ≠
        .ok (.fault .loopsMapKeyMissing)) :=
  ⟨⟨⟨by decide, (claim_C9_no_internal_faults.1 0).1 (by decide)⟩,
    ⟨by decide, (claim_C9_no_internal_faults.1 8).2 (by decide)⟩⟩,
    claim_C9_no_internal_faults.2 255 (initState []) "+[-]".toList [] 10⟩

/-! ### C10: runs are independent of prior state and (without input
instructions) of the host input stream -/

theorem memRead_setInput (j : List Nat) (s : EvalState) :
    memRead (setInput j s) = memRead s := rfl

theorem memWrite_setInput (j : List Nat) (s : EvalState) (v : Nat) :
    memWrite (setInput j s) v = Except.map (setInput j) (memWrite s v) := by
  unfold memWrite setInput
  by_cases h : s.pointer < s.mem.length
  · rw [if_pos h, if_pos h]
    rfl
  · rw [if_neg h, if_neg h]
    rfl

theorem moveForward_setInput (j : List Nat) (s : EvalState) :
    moveForward (setInput j s) = setInput j (moveForward s) := by
  unfold moveForward expandBuffer setInput
  by_cases h : s.pointer + 1 ≥ s.size
  · rw [if_pos h, if_pos h]
  · rw [if_neg h, if_neg h]

theorem moveBackward_setInput (j : List Nat) (s : EvalState) :
    moveBackward (setInput j s) = setInput j (moveBackward s) := by
  unfold moveBackward setInput
  by_cases h : 1 ≤ s.pointer
  · rw [if_pos h, if_pos h]
  · rw [if_neg h, if_neg h]

theorem increase_setInput (M : Nat) (j : List Nat) (s : EvalState) :
    increase M (setInput j s) = Except.map (setInput j) (increase M s) := by
  unfold increase
  rw [memRead_setInput]
  cases hm : memRead s with
  | error f => rfl
  | ok v => exact memWrite_setInput j s _

theorem decrease_setInput (M : Nat) (j : List Nat) (s : EvalState) :
    decrease M (setInput j s) = Except.map (setInput j) (decrease M s) := by
  unfold decrease
  rw [memRead_setInput]
  cases hm : memRead s with
  | error f => rfl
  | ok v => exact memWrite_setInput j s _

theorem printCell_setInput (j : List Nat) (s : EvalState) :
    printCell (setInput j s) = Except.map (setInput j) (printCell s) := by
  unfold printCell
  rw [memRead_setInput]
  cases hm : memRead s with
  | error f => rfl
  | ok v =>
    dsimp only
    by_cases hc : v < chrLimit
    · rw [if_pos hc, if_pos hc]
      rfl
    · rw [if_neg hc, if_neg hc]
      rfl

theorem loopStart_setInput (j : List Nat) (lm : List (Pos × Pos))
    (s : EvalState) :
    loopStart lm (setInput j s) =
      Except.map (fun r => (r.1, setInput j r.2)) (loopStart lm s) := by
  unfold loopStart
  rw [memRead_setInput]
  cases hm : memRead s with
  | error f => rfl
  | ok v =>
    dsimp only
    by_cases hz : v ≠ 0
    · rw [if_pos hz, if_pos hz]
      rfl
    · rw [if_neg hz, if_neg hz]
      simp only [setInput]
      cases hl : lookupPos lm s.position with
      | some q => rfl
      | none => rfl

theorem loopEnd_setInput (j : List Nat) (lm : List (Pos × Pos))
    (s : EvalState) :
    loopEnd lm (setInput j s) =
      Except.map (fun r => (r.1, setInput j r.2)) (loopEnd lm s) := by
  unfold loopEnd
  rw [memRead_setInput]
  cases hm : memRead s with
  | error f => rfl
  | ok v =>
    dsimp only
    by_cases hz : v = 0
    · rw [if_pos hz, if_pos hz]
      rfl
    · rw [if_neg hz, if_neg hz]
      simp only [setInput]
      cases hl : lookupPos lm s.position with
      | some q => rfl
      | none => rfl

theorem dispatch_setInput {M : Nat} {lm : List (Pos × Pos)} {c : Char}
    (j : List Nat) (s : EvalState) (hc : c ≠ ',') :
    dispatch M lm c (setInput j s) =
      Except.map (fun r => (r.1, setInput j r.2)) (dispatch M lm c s) := by
  unfold dispatch
  by_cases h1 : c = '>'
  · rw [if_pos h1, if_pos h1, moveForward_setInput]
    rfl
  rw [if_neg h1, if_neg h1]
  by_cases h2 : c = '<'
  · rw [if_pos h2, if_pos h2, moveBackward_setInput]
    rfl
  rw [if_neg h2, if_neg h2]
  by_cases h3 : c = '+'
  · rw [if_pos h3, if_pos h3, increase_setInput]
    cases increase M s <;> rfl
  rw [if_neg h3, if_neg h3]
  by_cases h4 : c = '-'
  · rw [if_pos h4, if_pos h4, decrease_setInput]
    cases decrease M s <;> rfl
  rw [if_neg h4, if_neg h4]
  by_cases h5 : c = '.'
  · rw [if_pos h5, if_pos h5, printCell_setInput]
    cases printCell s <;> rfl
  rw [if_neg h5, if_neg h5]
  rw [if_neg hc, if_neg hc]
  by_cases h7 : c = '['
  · rw [if_pos h7, if_pos h7]
    exact loopStart_setInput j lm s
  rw [if_neg h7, if_neg h7]
  by_cases h8 : c = ']'
  · rw [if_pos h8, if_pos h8]
    exact loopEnd_setInput j lm s
  rw [if_neg h8, if_neg h8]
  rfl

theorem innerLoop_setInput {M : Nat} {lm : List (Pos × Pos)} {li : Nat}
    (j : List Nat) :
    ∀ {chars : List Char} {col : Nat} {pc : Option Bool} {s : EvalState},
      (∀ c ∈ chars, c ≠ ',') →
      innerLoop M lm li chars col pc (setInput j s) =
        Except.map (fun r => (r.1, setInput j r.2))
          (innerLoop M lm li chars col pc s) := by
  intro chars
  induction chars with
  | nil =>
    intro col pc s hch
    rfl
  | cons c rest ih =>
    intro col pc s hch
    have hcc : c ≠ ',' := hch c (List.mem_cons_self _ _)
    have hrest : ∀ c ∈ rest, c ≠ ',' :=
      fun c hc => hch c (List.mem_cons_of_mem _ hc)
    by_cases hc : isInstr c
    · cases hd : dispatch M lm c s with
      | error f =>
        have hd' : dispatch M lm c (setInput j s) = .error f := by
          rw [dispatch_setInput j s hcc, hd]
          rfl
        rw [innerLoop_cons_fault hc hd, innerLoop_cons_fault hc hd']
        rfl
      | ok r =>
        obtain ⟨pc₁, s₁⟩ := r
        have hd' : dispatch M lm c (setInput j s) = .ok (pc₁, setInput j s₁) := by
          rw [dispatch_setInput j s hcc, hd]
          rfl
        by_cases ht : pc₁ = some true
        · subst ht
          rw [innerLoop_cons_jump hc hd, innerLoop_cons_jump hc hd']
          rfl
        · rw [innerLoop_cons_step hc hd ht, innerLoop_cons_step hc hd' ht]
          have hstate : ({ setInput j s₁ with position := (li, col + 1) } :
              EvalState) = setInput j { s₁ with position := (li, col + 1) } :=
            rfl
          rw [hstate]
          exact ih hrest
    · rw [innerLoop_cons_skip (by simpa using hc),
        innerLoop_cons_skip (by simpa using hc)]
      have hstate : ({ setInput j s with position := (li, col + 1) } :
          EvalState) = setInput j { s with position := (li, col + 1) } := rfl
      rw [hstate]
      exact ih hrest

theorem outerLoop_setInput {M : Nat} {lm : List (Pos × Pos)}
    {script : List (Nat × List Char)} (j : List Nat)
    (hscript : ∀ e ∈ script, ∀ c ∈ e.2, c ≠ ',') :
    ∀ {fuel : Nat} {s : EvalState},
      outerLoop M lm script fuel (setInput j s) =
        setInputRun j (outerLoop M lm script fuel s) := by
  intro fuel
  induction fuel with
  | zero =>
    intro s
    rfl
  | succ n ih =>
    intro s
    rw [outerLoop, outerLoop]
    have hpos : (setInput j s).position = s.position := rfl
    rw [hpos]
    cases hg : script.get? s.position.1 with
    | none => rfl
    | some line =>
      dsimp only
      have hline : ∀ c ∈ line.2, c ≠ ',' :=
        hscript line (List.get?_mem hg)
      have hchars : ∀ c ∈ line.2.drop s.position.2, c ≠ ',' :=
        fun c hc => hline c (List.mem_of_mem_drop hc)
      rw [innerLoop_setInput j hchars]
      cases hi : innerLoop M lm s.position.1 (line.2.drop s.position.2)
          s.position.2 (some false) s with
      | error f => rfl
      | ok r =>
        obtain ⟨pc, s₁⟩ := r
        dsimp only [Except.map]
        by_cases hpc : pc = some false
        · rw [if_pos hpc, if_pos hpc]
          show outerLoop M lm script n
              (setInput j { s₁ with position := (s₁.position.1 + 1, 0) }) =
            setInputRun j (outerLoop M lm script n
              { s₁ with position := (s₁.position.1 + 1, 0) })
          exact ih
        · rw [if_neg hpc, if_neg hpc]
          exact ih

theorem splitlinesAux_chars :
    ∀ (n : Nat) (l acc line : List Char), l.length ≤ n →
      line ∈ splitlinesAux l acc → ∀ c ∈ line, c ∈ l ∨ c ∈ acc := by
  intro n
  induction n with
  | zero =>
    intro l acc line hlen hmem c hc
    have hl : l = [] := List.length_eq_zero.mp (by omega)
    subst hl
    unfold splitlinesAux at hmem
    by_cases hacc : acc.isEmpty
    · rw [if_pos hacc] at hmem
      simp at hmem
    · rw [if_neg hacc] at hmem
      simp only [List.mem_singleton] at hmem
      subst hmem
      exact Or.inr (List.mem_reverse.mp hc)
  | succ n ih =>
    intro l acc line hlen hmem c hc
    cases l with
    | nil =>
      unfold splitlinesAux at hmem
      by_cases hacc : acc.isEmpty
      · rw [if_pos hacc] at hmem
        simp at hmem
      · rw [if_neg hacc] at hmem
        simp only [List.mem_singleton] at hmem
        subst hmem
        exact Or.inr (List.mem_reverse.mp hc)
    | cons a rest =>
      by_cases ha1 : a = '\x0d'
      · subst ha1
        cases rest with
        | nil =>
          have hstep : splitlinesAux ['\x0d'] acc =
              acc.reverse :: splitlinesAux [] [] := rfl
          rw [hstep] at hmem
          rcases List.mem_cons.mp hmem with rfl | hmem
          · exact Or.inr (List.mem_reverse.mp hc)
          · have hih := ih [] [] line (by simp) hmem c hc
            rcases hih with h | h <;> simp at h
        | cons b rest' =>
          by_cases hb : b = '\n'
          · subst hb
            have hstep : splitlinesAux ('\x0d' :: '\n' :: rest') acc =
                acc.reverse :: splitlinesAux rest' [] := rfl
            rw [hstep] at hmem
            rcases List.mem_cons.mp hmem with rfl | hmem
            · exact Or.inr (List.mem_reverse.mp hc)
            · have hih := ih rest' [] line
                (by simp only [List.length_cons] at hlen ⊢; omega) hmem c hc
              rcases hih with h | h
              · exact Or.inl
                  (List.mem_cons_of_mem _ (List.mem_cons_of_mem _ h))
              · simp at h
          · have hstep : splitlinesAux ('\x0d' :: b :: rest') acc =
                acc.reverse :: splitlinesAux (b :: rest') [] := by
              simp [splitlinesAux, hb]
            rw [hstep] at hmem
            rcases List.mem_cons.mp hmem with rfl | hmem
            · exact Or.inr (List.mem_reverse.mp hc)
            · have hih := ih (b :: rest') [] line
                (by simp only [List.length_cons] at hlen ⊢; omega) hmem c hc
              rcases hih with h | h
              · exact Or.inl (List.mem_cons_of_mem _ h)
              · simp at h
      · by_cases ha2 : a = '\n'
        · subst ha2
          have hstep : splitlinesAux ('\n' :: rest) acc =
              acc.reverse :: splitlinesAux rest [] := rfl
          rw [hstep] at hmem
          rcases List.mem_cons.mp hmem with rfl | hmem
          · exact Or.inr (List.mem_reverse.mp hc)
          · have hih := ih rest [] line
              (by simp only [List.length_cons] at hlen ⊢; omega) hmem c hc
            rcases hih with h | h
            · exact Or.inl (List.mem_cons_of_mem _ h)
            · simp at h
        · have hstep : splitlinesAux (a :: rest) acc =
              splitlinesAux rest (a :: acc) := by
            simp [splitlinesAux, ha1, ha2]
          rw [hstep] at hmem
          have hih := ih rest (a :: acc) line
            (by simp only [List.length_cons] at hlen ⊢; omega) hmem c hc
          rcases hih with h | h
          · exact Or.inl (List.mem_cons_of_mem _ h)
          · rcases List.mem_cons.mp h with rfl | h
            · exact Or.inl (List.mem_cons_self _ _)
            · exact Or.inr h

theorem splitlines_chars {code line : List Char}
    (h : line ∈ splitlines code) : ∀ c ∈ line, c ∈ code := by
  intro c hc
  rcases splitlinesAux_chars code.length code [] line (le_refl _) h c hc with
    h' | h'
  · exact h'
  · simp at h'

theorem script_no_comma {code : List Char}
    (h : code.all (fun c => c ≠ ',') = true) :
    ∀ e ∈ mkScript (splitlines code), ∀ c ∈ e.2, c ≠ ',' := by
  intro e he c hc
  have henum := (List.mem_filter.mp he).1
  have hget := List.mem_enum_iff_get?.mp henum
  have hmemline : e.2 ∈ splitlines code := List.get?_mem hget
  have hcc : c ∈ code := splitlines_chars hmemline c hc
  have := List.all_eq_true.mp h c hcc
  simpa using this

/-- C10: for every program containing no input instruction, evaluation is
deterministic and independent of any state carried over from a previous
run: `eval` fully resets pointer, cursor, size, tape, script and jump table,
so two runs on the same source with the same cell width — with arbitrary
previous instance states and arbitrary host input streams — produce the
same result up to the untouched input stream; in particular the same
emitted output sequence and the same final tape. -/
theorem claim_C10_deterministic :
    ∀ (M : Nat) (p1 p2 : EvalState) (code : List Char) (in1 in2 : List Nat)
      (fuel : Nat),
      code.all (fun c => c ≠ ',') = true →
      (evalCode M p2 code in2 fuel =
          setInputEval in2 (evalCode M p1 code in1 fuel) ∧
        ∀ s1 s2, evalCode M p1 code in1 fuel = .ok (.halted s1) →
          evalCode M p2 code in2 fuel = .ok (.halted s2) →
          s2.output = s1.output ∧ s2.mem = s1.mem) := by
  intro M p1 p2 code in1 in2 fuel hnc
  have hmain : evalCode M p2 code in2 fuel =
      setInputEval in2 (evalCode M p1 code in1 fuel) := by
    rw [evalCode_eq, evalCode_eq]
    cases hb : buildLoopsMap (mkScript (splitlines code)) with
    | error e => rfl
    | ok lm =>
      dsimp only [setInputEval]
      have hinit : initState in2 = setInput in2 (initState in1) := rfl
      rw [hinit, outerLoop_setInput in2 (script_no_comma hnc)]
  refine ⟨hmain, ?_⟩
  intro s1 s2 h1 h2
  rw [hmain, h1] at h2
  dsimp only [setInputEval, setInputRun] at h2
  have h3 := Except.ok.inj h2
  have h4 : setInput in2 s1 = s2 := by
    cases h3
    rfl
  rw [← h4]
  exact ⟨rfl, rfl⟩

/-- Witness for C10: the program `+.` with two different prior instance
states and two different input streams. -/
theorem claim_C10_deterministic_witness :
    (("+.".toList).all (fun c => c ≠ ',') = true) ∧
    (evalCode 255 { initState [] with mem := [9], pointer := 0 } "+.".toList
        [5] 5 =
      setInputEval [5] (evalCode 255 (initState []) "+.".toList [] 5) ∧
      ∀ s1 s2, evalCode 255 (initState []) "+.".toList [] 5 =
          .ok (.halted s1) →
        evalCode 255 { initState [] with mem := [9], pointer := 0 }
            "+.".toList [5] 5 = .ok (.halted s2) →
        s2.output = s1.output ∧ s2.mem = s1.mem) :=
  ⟨by decide,
    claim_C10_deterministic 255 (initState [])
      { initState [] with mem := [9], pointer := 0 } "+.".toList [] [5] 5
      (by decide)⟩

end BFI
